import Mathlib

/-!
# 1pwn: the HaveIBeenPwned range checker (`internal/hibp/check.go`)

A shallow embedding of `Checker.Pwned`, `Checker.ensureCached` and `scrub`, together with
the standard-library functions they call (`sha1.Sum`, `hex.EncodeToString`,
`hex.DecodeString`, `strings.ToUpper`, `strings.Split`, `strconv.ParseInt`,
`bufio.Scanner` with the default `ScanLines` split function).

Go strings and byte slices are lists of bytes. The two Go maps of `Checker` are total
lookup functions (a nil map reads like the empty map, and `ensureCached` replaces a nil
map by an empty one before it writes). A call is modelled by a `Run`: the state of the
checker when the call ends, the HTTP requests it issued, and whether it returned or
panicked.
-/

/-- One byte. -/
abbrev Byte := Fin 256

/-- A Go `string` or `[]byte`. -/
abbrev Bytes := List Byte

/-- The UTF-8 encoding of a character. -/
def utf8 (c : Char) : Bytes :=
  let n := c.toNat
  if n < 0x80 then [Fin.ofNat n]
  else if n < 0x800 then [Fin.ofNat (0xC0 + n / 64), Fin.ofNat (0x80 + n % 64)]
  else if n < 0x10000 then
    [Fin.ofNat (0xE0 + n / 4096), Fin.ofNat (0x80 + n / 64 % 64), Fin.ofNat (0x80 + n % 64)]
  else
    [Fin.ofNat (0xF0 + n / 262144), Fin.ofNat (0x80 + n / 4096 % 64),
     Fin.ofNat (0x80 + n / 64 % 64), Fin.ofNat (0x80 + n % 64)]

/-- The bytes of a Go string literal (Go source text is UTF-8). -/
def ofString (s : String) : Bytes := s.data.flatMap utf8

/-- The Go statement pair `var a [n]byte; copy(a[:], src)`: the first `n` bytes of `src`,
zero-padded when `src` is shorter. -/
def copyToArray (n : Nat) (src : Bytes) : { l : Bytes // l.length = n } :=
  ⟨(src ++ List.replicate n (0 : Byte)).take n, by simp⟩

namespace sha1

/-- The constant `sha1.Size`: the size of a SHA-1 checksum in bytes. -/
def Size : Nat := 20

/-- A value of type `[sha1.Size]byte`. -/
abbrev Digest := { l : Bytes // l.length = Size }

/-- Rotate a 32-bit word left by `n` bits. -/
def rotl (x n : Nat) : Nat := ((x <<< n) ||| (x >>> (32 - n))) % 2 ^ 32

/-- Message padding: a `0x80` byte, zero bytes up to 56 modulo 64, and the bit length as
a big-endian 64-bit integer. -/
def pad (msg : Bytes) : Bytes :=
  let bits := (8 * msg.length) % 2 ^ 64
  msg ++ [(0x80 : Byte)] ++ List.replicate ((119 - msg.length % 64) % 64) (0 : Byte)
    ++ (List.range 8).map (fun i => (Fin.ofNat ((bits >>> (8 * (7 - i))) % 256) : Byte))

/-- Big-endian 32-bit words of a block. -/
def words : Bytes → List Nat
  | b0 :: b1 :: b2 :: b3 :: rest =>
      (b0.val <<< 24 ||| b1.val <<< 16 ||| b2.val <<< 8 ||| b3.val) :: words rest
  | _ => []

/-- The 80-word message schedule of a block. -/
def schedule (w16 : List Nat) : List Nat :=
  (List.range 64).foldl
    (fun w i =>
      let t := i + 16
      w ++ [rotl (w.getD (t - 3) 0 ^^^ w.getD (t - 8) 0 ^^^ w.getD (t - 14) 0
        ^^^ w.getD (t - 16) 0) 1])
    w16

/-- The five chaining words. -/
structure State where
  h0 : Nat
  h1 : Nat
  h2 : Nat
  h3 : Nat
  h4 : Nat
deriving DecidableEq

/-- The initial chaining value. -/
def init : State := ⟨0x67452301, 0xEFCDAB89, 0x98BADCFE, 0x10325476, 0xC3D2E1F0⟩

/-- Round `t` of the compression function. -/
def round (w : List Nat) (s : State) (t : Nat) : State :=
  let f :=
    if t < 20 then (s.h1 &&& s.h2) ||| ((s.h1 ^^^ 0xFFFFFFFF) &&& s.h3)
    else if t < 40 then s.h1 ^^^ s.h2 ^^^ s.h3
    else if t < 60 then (s.h1 &&& s.h2) ||| (s.h1 &&& s.h3) ||| (s.h2 &&& s.h3)
    else s.h1 ^^^ s.h2 ^^^ s.h3
  let k :=
    if t < 20 then 0x5A827999 else if t < 40 then 0x6ED9EBA1
    else if t < 60 then 0x8F1BBCDC else 0xCA62C1D6
  ⟨(rotl s.h0 5 + f + s.h4 + k + w.getD t 0) % 2 ^ 32, s.h0, rotl s.h1 30, s.h2, s.h3⟩

/-- The compression function on one 64-byte block. -/
def block (s : State) (chunk : Bytes) : State :=
  let w := schedule (words chunk)
  let r := (List.range 80).foldl (round w) s
  ⟨(s.h0 + r.h0) % 2 ^ 32, (s.h1 + r.h1) % 2 ^ 32, (s.h2 + r.h2) % 2 ^ 32,
   (s.h3 + r.h3) % 2 ^ 32, (s.h4 + r.h4) % 2 ^ 32⟩

/-- Compress `n` consecutive 64-byte blocks. -/
def blocks : Nat → State → Bytes → State
  | 0, s, _ => s
  | n + 1, s, data => blocks n (block s (data.take 64)) (data.drop 64)

/-- A 32-bit word as four big-endian bytes. -/
def word4 (w : Nat) : Bytes :=
  [(Fin.ofNat (w >>> 24) : Byte), (Fin.ofNat (w >>> 16) : Byte),
   (Fin.ofNat (w >>> 8) : Byte), (Fin.ofNat w : Byte)]

/-- The checksum bytes of a final chaining value. -/
def digest (s : State) : Bytes :=
  word4 s.h0 ++ word4 s.h1 ++ word4 s.h2 ++ word4 s.h3 ++ word4 s.h4

/-- The function `sha1.Sum`: the SHA-1 checksum of the data. -/
def Sum (data : Bytes) : Digest :=
  ⟨digest (blocks ((pad data).length / 64) init (pad data)), by simp [digest, word4, Size]⟩

end sha1

namespace hex

/-- The constant `hextable`, the string `0123456789abcdef`. -/
def hextable : Bytes := [48, 49, 50, 51, 52, 53, 54, 55, 56, 57, 97, 98, 99, 100, 101, 102]

/-- The two characters `hextable[v>>4]`, `hextable[v&0x0f]` of a byte. -/
def encodeByte (v : Byte) : Bytes :=
  [hextable.getD (v.val >>> 4) 0, hextable.getD (v.val &&& 0x0f) 0]

/-- The function `hex.EncodeToString`: two lower-case hex characters per byte. -/
def EncodeToString (src : Bytes) : Bytes := src.flatMap encodeByte

/-- The errors of `hex.DecodeString`. -/
inductive Error where
  | InvalidByteError (b : Byte)
  | ErrLength
deriving DecidableEq

/-- The value of a hex character, in either case; `none` for any other byte. -/
def fromHexChar (c : Byte) : Option Nat :=
  if 48 ≤ c.val ∧ c.val ≤ 57 then some (c.val - 48)
  else if 97 ≤ c.val ∧ c.val ≤ 102 then some (c.val - 97 + 10)
  else if 65 ≤ c.val ∧ c.val ≤ 70 then some (c.val - 65 + 10)
  else none

/-- The function `hex.DecodeString`. The input is read in pairs; an invalid character is
reported before an odd length. (Go also returns the bytes decoded before the error; the
caller here discards them.) -/
def DecodeString : Bytes → Except Error Bytes
  | p :: q :: rest =>
    match fromHexChar p, fromHexChar q with
    | none, _ => .error (.InvalidByteError p)
    | some _, none => .error (.InvalidByteError q)
    | some a, some b =>
      match DecodeString rest with
      | .error e => .error e
      | .ok bs => .ok ((Fin.ofNat (a <<< 4 ||| b) : Byte) :: bs)
  | [p] =>
    match fromHexChar p with
    | none => .error (.InvalidByteError p)
    | some _ => .error .ErrLength
  | [] => .ok []

end hex

namespace strings

/-- The byte step of `strings.ToUpper`: `if 'a' <= c && c <= 'z' { c -= 'a' - 'A' }`. -/
def upperByte (c : Byte) : Byte :=
  if 97 ≤ c.val ∧ c.val ≤ 122 then (Fin.ofNat (c.val - 32) : Byte) else c

/-- The function `strings.ToUpper` on ASCII input (the only input it receives here, the
output of `hex.EncodeToString`): bytes `a`..`z` are mapped to `A`..`Z`. -/
def ToUpper (s : Bytes) : Bytes := s.map upperByte

/-- The function `strings.Split` for a one-byte separator: the substrings between the
separators; the empty string yields one empty substring. -/
def Split (s : Bytes) (sep : Byte) : List Bytes :=
  match s with
  | [] => [[]]
  | c :: rest =>
    if c = sep then [] :: Split rest sep
    else
      match Split rest sep with
      | p :: ps => (c :: p) :: ps
      | [] => [[c]]

end strings

namespace strconv

/-- The two causes of a `*strconv.NumError`. -/
inductive NumError where
  | ErrSyntax
  | ErrRange
deriving DecidableEq

/-- The digit loop of `strconv.ParseUint(s, 10, 64)`, with accumulator `n`. -/
def parseUintLoop : Nat → Bytes → Except NumError Nat
  | n, [] => .ok n
  | n, c :: rest =>
    if 48 ≤ c.val ∧ c.val ≤ 57 then
      if n ≥ (2 ^ 64 - 1) / 10 + 1 then .error .ErrRange
      else if n * 10 + (c.val - 48) > 2 ^ 64 - 1 then .error .ErrRange
      else parseUintLoop (n * 10 + (c.val - 48)) rest
    else .error .ErrSyntax

/-- The function `strconv.ParseUint(s, 10, 64)`. -/
def ParseUint (s : Bytes) : Except NumError Nat :=
  if s = [] then .error .ErrSyntax else parseUintLoop 0 s

/-- The function `strconv.ParseInt(s, 10, 64)`: an optional sign, then `ParseUint`, then
the range check against `1 << 63`. -/
def ParseInt (s : Bytes) : Except NumError Int :=
  match s with
  | [] => .error .ErrSyntax
  | c :: rest =>
    let neg := decide (c = 45)
    let body := if c = 43 ∨ c = 45 then rest else s
    match ParseUint body with
    | .error .ErrSyntax => .error .ErrSyntax
    | .error .ErrRange => .error .ErrRange
    | .ok un =>
      if ¬ neg ∧ un ≥ 2 ^ 63 then .error .ErrRange
      else if neg ∧ un > 2 ^ 63 then .error .ErrRange
      else .ok (if neg then - (un : Int) else (un : Int))

end strconv

namespace bufio

/-- The function `dropCR`: drop one trailing carriage return. -/
def dropCR (data : Bytes) : Bytes :=
  if data.getLast? = some 13 then data.dropLast else data

/-- The constant `MaxScanTokenSize`: the size up to which a `Scanner` made by `NewScanner`
lets its buffer grow. -/
def MaxScanTokenSize : Nat := 64 * 1024

/-- The tokens `Scanner.Scan` hands out with the split function `ScanLines` on the data
`cur ++ data`, where `cur` is the part of the current line already in the buffer: one token
per newline-terminated line and one for a non-empty unterminated last line. A line is
found once its newline is in the buffer. When the buffer holds `MaxScanTokenSize` bytes
without a newline and the reader has not reported its end, `Scan` sets `ErrTooLong` and
returns false: neither that line nor any later one is handed out. -/
def scanFrom (cur : Bytes) : Bytes → List Bytes
  | [] => if cur = [] then [] else if MaxScanTokenSize ≤ cur.length then [] else [dropCR cur]
  | c :: rest =>
    if MaxScanTokenSize ≤ cur.length then []
    else if c = 10 then dropCR cur :: scanFrom [] rest
    else scanFrom (cur ++ [c]) rest

/-- Whether the scan of `cur ++ data` ends with `ErrTooLong`, on the same path as
`scanFrom`. -/
def tooLongFrom (cur : Bytes) : Bytes → Bool
  | [] => decide (MaxScanTokenSize ≤ cur.length)
  | c :: rest =>
    if MaxScanTokenSize ≤ cur.length then true
    else if c = 10 then tooLongFrom [] rest
    else tooLongFrom (cur ++ [c]) rest

/-- All tokens that `bufio.NewScanner(body)` hands out over the data `data`. -/
def ScanLines (data : Bytes) : List Bytes := scanFrom [] data

/-- Whether `bufio.NewScanner(body)` stops over the data `data` with `ErrTooLong`. -/
def TooLong (data : Bytes) : Bool := tooLongFrom [] data

/-- The lines of the data `cur ++ data`, of any length and with their carriage returns:
the runs of bytes that end at a newline, and a non-empty unterminated last run. -/
def linesFrom (cur : Bytes) : Bytes → List Bytes
  | [] => if cur = [] then [] else [cur]
  | c :: rest => if c = 10 then cur :: linesFrom [] rest else linesFrom (cur ++ [c]) rest

/-- The lines of a body. -/
def lines (data : Bytes) : List Bytes := linesFrom [] data

end bufio

namespace hibp

open sha1 (Digest)

/-- A Go `error` value or panic argument arising in this package. -/
inductive GoError where
  | transport (msg : String)
  | scan (msg : String)
  | hex (e : hex.Error)
  | num (e : strconv.NumError)
  | text (msg : String)
deriving DecidableEq

/-- How a call ends: it returns a value or it panics. -/
inductive Outcome (α : Type) where
  | returned (v : α)
  | panicked (cause : GoError)
deriving DecidableEq

/-- The request built by `http.NewRequest(method, url, nil)`. -/
structure Request where
  method : String
  url : Bytes
deriving DecidableEq

/-- The error value `bufio.ErrTooLong`. -/
def ErrTooLong : GoError := .scan "bufio.Scanner: token too long"

/-- What `ensureCached` reads of an `*http.Response`: the status code (never inspected),
the bytes the body reader delivers, and the error with which the reader ends (`none` for
`io.EOF`). The reader reports its end or its error by a read of its own, after the last
byte of the body. -/
structure Response where
  StatusCode : Nat
  Body : Bytes
  ReadErr : Option GoError
deriving DecidableEq

/-- The value of `scanner.Err()` after the loop `for scanner.Scan()`: `bufio.ErrTooLong`
when the scanner stopped at a line that does not fit its buffer, the error of the reader
otherwise (`none` when the body ended cleanly). -/
def Response.ScanErr (resp : Response) : Option GoError :=
  if bufio.TooLong resp.Body then some ErrTooLong else resp.ReadErr

/-- The field `Checker.HTTPClient` (or `http.DefaultClient` when it is nil), as the answer
of `HTTPClient.Do` to a request. -/
abbrev Client := Request → Except GoError Response

/-- A key of the map `Checker.prefix`, of Go type `[5]byte`. -/
abbrev Prefix5 := { l : Bytes // l.length = 5 }

/-- The two caches of the struct `Checker`: `seen` is the map `prefix map[[5]byte]bool`
and `pwned` is the map `pwned map[[sha1.Size]byte]int64` (`none` for an absent key). -/
structure Checker where
  seen : Prefix5 → Bool
  pwned : Digest → Option Int

/-- The zero value `var check hibp.Checker`. -/
def Checker.empty : Checker := ⟨fun _ => false, fun _ => none⟩

/-- The map assignment `m[k] = v`. -/
def mapSet {κ ν : Type} [DecidableEq κ] (m : κ → ν) (k : κ) (v : ν) : κ → ν :=
  fun x => if x = k then v else m x

/-- The map read `c.pwned[sum]`: the zero value for an absent key. -/
def Checker.count (c : Checker) (sum : Digest) : Int := (c.pwned sum).getD 0

/-- The state in which a call ends, the requests it issued, and its outcome. -/
structure Run (α : Type) where
  checker : Checker
  requests : List Request
  outcome : Outcome α

/-- The function `scrub`, with its three range tests as written in the source. -/
def scrub (s : Bytes) : Bytes :=
  s.filter (fun c =>
    (c.val ≥ 48 && c.val ≤ 57) || (c.val ≥ 65 && c.val ≤ 90) || (c.val ≥ 97 && c.val ≤ 90))

/-- The body of the loop `for scanner.Scan()` over the remaining tokens: the map when the
loop ends and the panic that ended it, if any. (The line `fmt.Println` writes to standard
output before the hex panic is not modelled.) -/
def scanLoop (hexprefix5 : Bytes) : (Digest → Option Int) → List Bytes →
    (Digest → Option Int) × Option GoError
  | m, [] => (m, none)
  | m, line :: rest =>
    match strings.Split line 58 with
    | [part0, part1] =>
      match hex.DecodeString (scrub (hexprefix5 ++ part0)) with
      | .error e => (m, some (.hex e))
      | .ok hash =>
        match strconv.ParseInt part1 with
        | .error e => (m, some (.num e))
        | .ok count => scanLoop hexprefix5 (mapSet m (copyToArray sha1.Size hash) count) rest
    | _ => (m, some (.text "not the right part count"))

/-- The upper-case hex form of a checksum: `strings.ToUpper(hex.EncodeToString(sha[:]))`. -/
def upperHex (sha : Digest) : Bytes := strings.ToUpper (hex.EncodeToString sha.val)

/-- The string `hexprefix[0:5]`: the first five characters of the upper-case hex form. -/
def prefixChars (sha : Digest) : Bytes := (upperHex sha).take 5

/-- The array `prefix` of `ensureCached`: `copy(prefix[:], []byte(hexprefix[0:5]))`. -/
def prefixKey (sha : Digest) : Prefix5 := copyToArray 5 (prefixChars sha)

/-- The string `hexprefix[5:]`: characters 6..40 of the upper-case hex form. -/
def suffixChars (sha : Digest) : Bytes := (upperHex sha).drop 5

/-- The request of `ensureCached` for a checksum. -/
def rangeRequest (sha : Digest) : Request :=
  ⟨"GET", ofString "https://api.pwnedpasswords.com/range/" ++ prefixChars sha⟩

/-- The method `Checker.ensureCached`. It returns `nil` (`none`) or the scanner's error. -/
def ensureCached (c : Checker) (client : Client) (sha : Digest) : Run (Option GoError) :=
  if c.seen (prefixKey sha) then ⟨c, [], .returned none⟩
  else
    match client (rangeRequest sha) with
    | .error e => ⟨c, [rangeRequest sha], .panicked e⟩
    | .ok resp =>
      match scanLoop (prefixChars sha) c.pwned (bufio.ScanLines resp.Body) with
      | (m, some p) => ⟨{ c with pwned := m }, [rangeRequest sha], .panicked p⟩
      | (m, none) =>
        ⟨{ seen := mapSet c.seen (prefixKey sha) true, pwned := m }, [rangeRequest sha],
          .returned resp.ScanErr⟩

/-- The method `Checker.Pwned`. -/
def Pwned (c : Checker) (client : Client) (pwd : Bytes) : Run Int :=
  let sum := sha1.Sum pwd
  let r := ensureCached c client sum
  match r.outcome with
  | .returned none => ⟨r.checker, r.requests, .returned (r.checker.count sum)⟩
  | .returned (some err) => ⟨r.checker, r.requests, .panicked err⟩
  | .panicked p => ⟨r.checker, r.requests, .panicked p⟩

/-- The runs of `k` consecutive calls `Pwned(pwd)` starting in state `c`, the `i`-th of
them answered by `clients i`. -/
def repeatPwned (clients : Nat → Client) (pwd : Bytes) : Nat → Checker → List (Run Int)
  | 0, _ => []
  | k + 1, c => Pwned c (clients k) pwd :: repeatPwned clients pwd k (Pwned c (clients k) pwd).checker

/-- A character `0`..`9` or `A`..`F`. -/
def isUpperHexChar (c : Byte) : Prop := (48 ≤ c.val ∧ c.val ≤ 57) ∨ (65 ≤ c.val ∧ c.val ≤ 70)

/-- A character `0`..`9`. -/
def isDecimalDigit (c : Byte) : Prop := 48 ≤ c.val ∧ c.val ≤ 57

/-- The number a string of decimal digits denotes. -/
def decimalValue (s : Bytes) : Nat := s.foldl (fun n c => n * 10 + (c.val - 48)) 0

/-- A line of a range response as the protocol describes it: a suffix field and a count
field, written `suffix:count`. -/
structure RangeLine where
  suffix : Bytes
  count : Bytes

/-- The text of a line: the suffix, a colon, the count. -/
def RangeLine.text (l : RangeLine) : Bytes := l.suffix ++ 58 :: l.count

/-- A well-formed line: 35 upper-case hex characters, then decimal digits that denote a
number fitting in an `int64`. -/
def RangeLine.WellFormed (l : RangeLine) : Prop :=
  l.suffix.length = 35 ∧ (∀ c ∈ l.suffix, isUpperHexChar c) ∧
    l.count ≠ [] ∧ (∀ c ∈ l.count, isDecimalDigit c) ∧ decimalValue l.count < 2 ^ 63

/-- A line on which the loop body of `ensureCached` panics: it does not split on `:` into
exactly two fields, or the prefix followed by the scrubbed first field does not decode as
hex, or the second field does not parse as a base-10 64-bit integer. -/
def Malformed (hexprefix5 line : Bytes) : Prop :=
  (strings.Split line 58).length ≠ 2 ∨
    (∃ e, hex.DecodeString (scrub (hexprefix5 ++ (strings.Split line 58).headD [])) = .error e) ∨
    (∃ e, strconv.ParseInt ((strings.Split line 58).getD 1 []) = .error e)

/-- The response body of the specification's synthetic test: two lines, the second with a
suffix of 34 characters. -/
def syntheticBody : Bytes :=
  ofString "0018A45C4D1DEF81644B54AB7F969B88D65:1\n003D68EB55068C33ACE09247EE4C639306:3"

/-- The synthetic body with the second suffix completed to 35 characters. -/
def syntheticBodyFull : Bytes :=
  ofString "0018A45C4D1DEF81644B54AB7F969B88D65:1\n003D68EB55068C33ACE09247EE4C639306B:3"

/-- The checksum with hex form `5BAA6` `0018A45C4D1DEF81644B54AB7F969B88D65`. -/
def syntheticFirst : Digest :=
  ⟨[0x5B, 0xAA, 0x60, 0x01, 0x8A, 0x45, 0xC4, 0xD1, 0xDE, 0xF8, 0x16, 0x44, 0xB5, 0x4A,
    0xB7, 0xF9, 0x69, 0xB8, 0x8D, 0x65], rfl⟩

/-- The checksum with hex form `5BAA6` `003D68EB55068C33ACE09247EE4C639306B`. -/
def syntheticSecond : Digest :=
  ⟨[0x5B, 0xAA, 0x60, 0x03, 0xD6, 0x8E, 0xB5, 0x50, 0x68, 0xC3, 0x3A, 0xCE, 0x09, 0x24,
    0x7E, 0xE4, 0xC6, 0x39, 0x30, 0x6B], rfl⟩

end hibp

namespace hibp

open sha1 (Digest)

/-- An ASCII letter or digit. -/
def isAlphanumeric (c : Byte) : Bool :=
  (48 ≤ c.val && c.val ≤ 57) || (65 ≤ c.val && c.val ≤ 90) || (97 ≤ c.val && c.val ≤ 122)

/-- The key under which the loop body of `ensureCached` stores the count of a line: the
first `sha1.Size` bytes, zero-padded, of the hex decoding of the prefix followed by the
scrubbed first field. `none` when the line has not exactly two fields or does not decode. -/
def lineKey (hexprefix5 line : Bytes) : Option Digest :=
  match strings.Split line 58 with
  | [part0, _] =>
    match hex.DecodeString (scrub (hexprefix5 ++ part0)) with
    | .error _ => none
    | .ok hash => some (copyToArray sha1.Size hash)
  | _ => none

/-- A checker together with the response that was fetched for each prefix. -/
structure Session where
  checker : Checker
  fetched : Prefix5 → Option Response

/-- The empty checker; nothing has been fetched. -/
def Session.empty : Session := ⟨Checker.empty, fun _ => none⟩

/-- One successful call `Pwned(pwd)` answered by `client`: the checker after the call, and
the response recorded for the prefix when the call fetched it. `none` when the call
panics. -/
def Session.call (s : Session) (client : Client) (pwd : Bytes) : Option Session :=
  match (Pwned s.checker client pwd).outcome with
  | .panicked _ => none
  | .returned _ =>
    some ⟨(Pwned s.checker client pwd).checker,
      if s.checker.seen (prefixKey (sha1.Sum pwd)) then s.fetched
      else
        match client (rangeRequest (sha1.Sum pwd)) with
        | .error _ => s.fetched
        | .ok resp => mapSet s.fetched (prefixKey (sha1.Sum pwd)) (some resp)⟩

/-- A sequence of successful calls; `none` when one of them panics. -/
def Session.run : Session → List (Client × Bytes) → Option Session
  | s, [] => some s
  | s, (client, pwd) :: rest =>
    match s.call client pwd with
    | none => none
    | some s' => s'.run rest

/-- A state reached from the empty checker by successful calls of `Pwned`. -/
def Reachable (c : Checker) : Prop :=
  ∃ calls s, Session.run Session.empty calls = some s ∧ s.checker = c

/-- A response with a one-line body whose first field has three characters, for
examples. -/
def shortLineResponse : Response := ⟨200, ofString "ABC:5", none⟩

/-- A client that answers every request with `shortLineResponse`. -/
def shortLineClient : Client := fun _ => .ok shortLineResponse

/-- The key stored for the line `ABC:5` under the prefix `5BAA6`: the four bytes of
`5BAA6ABC` and sixteen zero bytes. -/
def shortLineKey : Digest :=
  ⟨[0x5B, 0xAA, 0x6A, 0xBC, 0, 0, 0, 0, 0, 0, 0, 0, 0, 0, 0, 0, 0, 0, 0, 0], rfl⟩

/-- The session after the call `Pwned("password")` on the empty checker, answered by
`shortLineClient`. -/
def shortLineSession : Session :=
  ⟨(Pwned Checker.empty shortLineClient (ofString "password")).checker,
    mapSet (fun _ => none) (prefixKey (sha1.Sum (ofString "password"))) (some shortLineResponse)⟩

end hibp

/-!
# 1pwn: the vault scan (`main.go`)

`ScanOnePassword` walks the items of a 1Password vault. The vault library `onepass` is
outside this repository: an item carries the answers of its two decryption methods, the
vault carries the answer of `ListItems`, and `json.Unmarshal` into the local struct
`passes` is a parameter. A Go `error` is given by its message. The callback may keep
state of its own, which is threaded through the scan; the scan records, in order, which
items it decrypted and which callback invocations it made.
-/

namespace onepass

/-- A form field of a decrypted item: the fields `Value` and `Type` of the library. -/
structure WebFormField where
  Value : String
  Type' : String
deriving DecidableEq

/-- The decrypted content `onepass.ItemContent`, as far as the scan reads it. -/
structure ItemContent where
  FormFields : List WebFormField
deriving DecidableEq

/-- An `onepass.Item`: the fields the scan reads and the results of the methods
`ContentJson()` and `Content()`. -/
structure Item where
  Title : String
  TypeName : String
  Trashed : Bool
  ContentJson : Except String String
  Content : Except String ItemContent

/-- An `onepass.Vault`: the result of `ListItems()`. -/
structure Vault where
  ListItems : Except String (List Item)

end onepass

namespace main

open onepass

/-- One element of `passes.URLs`. -/
structure URLPassword where
  URL : String
  Password : String
deriving DecidableEq

/-- The local struct `passes` that the JSON of a `passwords.Password` item is decoded
into. -/
structure Passes where
  Password : String
  URLs : List URLPassword
deriving DecidableEq

/-- The function `json.Unmarshal([]byte(icj), &passes)`: the decoded struct or the
error. -/
abbrev Unmarshal := String → Except String Passes

/-- What the scan does, in order. -/
inductive Event where
  | decrypt (item : Item)
  | callback (item : Item) (passwords : List String) (stop : Bool)

/-- The callback `cb`, with the state it keeps between invocations. -/
abbrev Callback (σ : Type) := σ → Item → List String → Bool × σ

/-- The outcome of a scan: what it did, the error it returned (`none` for nil), and the
state of the callback. -/
structure ScanRun (σ : Type) where
  events : List Event
  err : Option String
  state : σ

/-- The body of `switch item.TypeName`: the passwords of one item, or the error the scan
returns. -/
def extractPasswords (unmarshal : Unmarshal) (item : Item) : Except String (List String) :=
  if item.TypeName = "passwords.Password" then
    match item.ContentJson with
    | .error err => .error ("failed to decrypt item: " ++ item.Title ++ ": " ++ err ++ "\n")
    | .ok icj =>
      match unmarshal icj with
      | .error err => .error err
      | .ok passes =>
        .ok ((if passes.Password ≠ "" then [passes.Password] else []) ++
          passes.URLs.map (fun url => url.Password))
  else
    match item.Content with
    | .error err => .error err
    | .ok ic =>
      .ok ((ic.FormFields.filter (fun field => field.Type' = "P")).map (fun field => field.Value))

/-- The loop `for _, item := range items` of `ScanOnePassword`. -/
def scanItems {σ : Type} (unmarshal : Unmarshal) (cb : Callback σ) : σ → List Item → ScanRun σ
  | st, [] => ⟨[], none, st⟩
  | st, item :: rest =>
    if item.Trashed then scanItems unmarshal cb st rest
    else
      match extractPasswords unmarshal item with
      | .error err => ⟨[.decrypt item], some err, st⟩
      | .ok passwords =>
        if (cb st item passwords).1 then
          ⟨[.decrypt item, .callback item passwords true], none, (cb st item passwords).2⟩
        else
          let r := scanItems unmarshal cb (cb st item passwords).2 rest
          ⟨.decrypt item :: .callback item passwords false :: r.events, r.err, r.state⟩

/-- The function `ScanOnePassword`. -/
def ScanOnePassword {σ : Type} (unmarshal : Unmarshal) (v : Vault) (cb : Callback σ) (st : σ) :
    ScanRun σ :=
  match v.ListItems with
  | .error err => ⟨[], some ("failed to list items: " ++ err ++ "\n"), st⟩
  | .ok items => scanItems unmarshal cb st items

/-- The items the callback was invoked with, in order. -/
def callbackItems : List Event → List Item
  | [] => []
  | .decrypt _ :: rest => callbackItems rest
  | .callback item _ _ :: rest => item :: callbackItems rest

/-- The items that were decrypted, in order. -/
def decryptedItems : List Event → List Item
  | [] => []
  | .decrypt item :: rest => item :: decryptedItems rest
  | .callback _ _ _ :: rest => decryptedItems rest

/-- A login item with a user name field and one password field, for examples. -/
def sampleLogin (title : String) (trashed : Bool) (password : String) : Item :=
  ⟨title, "webforms.WebForm", trashed, .ok "{}",
    .ok ⟨[⟨"alice", "T"⟩, ⟨password, "P"⟩]⟩⟩

/-- A callback that counts its invocations and never asks to stop, for examples. -/
def countingCallback : Callback Nat := fun n _ _ => (false, n + 1)

/-- A callback that counts its invocations and always asks to stop, for examples. -/
def stoppingCallback : Callback Nat := fun n _ _ => (true, n + 1)

end main

namespace hibp

/-- A body that is one line of 65537 letters `A`: no colon, no newline, one byte more than
`bufio.MaxScanTokenSize`. -/
def longLineBody : Bytes := List.replicate 65537 65

/-- The response with status 200 and the body `longLineBody`, read without error. -/
def longLineResponse : Response := ⟨200, longLineBody, none⟩

end hibp


namespace hibp
open sha1 (Digest)

/-! ## Cache hits and the state after a call -/

theorem ensureCached_hit (c : Checker) (client : Client) (sha : Digest)
    (h : c.seen (prefixKey sha) = true) :
    ensureCached c client sha = ⟨c, [], .returned none⟩ := by
  simp [ensureCached, h]

theorem ensureCached_returned_seen (c : Checker) (client : Client) (sha : Digest)
    (e : Option GoError) (h : (ensureCached c client sha).outcome = .returned e) :
    (ensureCached c client sha).checker.seen (prefixKey sha) = true := by
  unfold ensureCached at h ⊢
  by_cases hs : c.seen (prefixKey sha) = true
  · simp [hs]
  · simp only [hs] at h ⊢
    cases hc : client (rangeRequest sha) with
    | error err => simp [hc] at h
    | ok resp =>
      simp only [hc] at h ⊢
      rcases hl : scanLoop (prefixChars sha) c.pwned (bufio.ScanLines resp.Body) with ⟨m, _ | p⟩
      · simp [mapSet]
      · simp [hl] at h

theorem Pwned_returned (c : Checker) (client : Client) (pwd : Bytes) (n : Int)
    (h : (Pwned c client pwd).outcome = .returned n) :
    (ensureCached c client (sha1.Sum pwd)).outcome = .returned none ∧
      n = (ensureCached c client (sha1.Sum pwd)).checker.count (sha1.Sum pwd) := by
  unfold Pwned at h
  cases ho : (ensureCached c client (sha1.Sum pwd)).outcome with
  | panicked p => simp [ho] at h
  | returned e =>
    cases e with
    | some err => simp [ho] at h
    | none => simp [ho] at h; exact ⟨rfl, h.symm⟩

theorem Pwned_checker (c : Checker) (client : Client) (pwd : Bytes) :
    (Pwned c client pwd).checker = (ensureCached c client (sha1.Sum pwd)).checker := by
  unfold Pwned
  dsimp only
  split <;> rfl

theorem Pwned_requests (c : Checker) (client : Client) (pwd : Bytes) :
    (Pwned c client pwd).requests = (ensureCached c client (sha1.Sum pwd)).requests := by
  unfold Pwned
  dsimp only
  split <;> rfl

theorem Pwned_hit (c : Checker) (client : Client) (pwd : Bytes)
    (h : c.seen (prefixKey (sha1.Sum pwd)) = true) :
    Pwned c client pwd = ⟨c, [], .returned (c.count (sha1.Sum pwd))⟩ := by
  simp [Pwned, ensureCached_hit c client _ h]

theorem prefixKey_eq_of_chars (h1 h2 : Digest) (h : prefixChars h1 = prefixChars h2) :
    prefixKey h1 = prefixKey h2 := by
  simp [prefixKey, h]

theorem ensureCached_miss (c : Checker) (client : Client) (sha : Digest) (resp : Response)
    (hunseen : c.seen (prefixKey sha) = false) (hresp : client (rangeRequest sha) = .ok resp) :
    ensureCached c client sha =
      match scanLoop (prefixChars sha) c.pwned (bufio.ScanLines resp.Body) with
      | (m, some p) => ⟨{ c with pwned := m }, [rangeRequest sha], .panicked p⟩
      | (m, none) =>
        ⟨{ seen := mapSet c.seen (prefixKey sha) true, pwned := m }, [rangeRequest sha],
          .returned resp.ScanErr⟩ := by
  simp [ensureCached, hunseen, hresp]

/-! ## The shape of the hex prefix -/

theorem upperHex_eq (sha : Digest) :
    upperHex sha = sha.val.flatMap (fun v => strings.ToUpper (hex.encodeByte v)) := by
  unfold upperHex hex.EncodeToString strings.ToUpper
  rw [List.map_flatMap]

set_option maxRecDepth 100000 in
theorem upperPair_chars_aux : ∀ n (hn : n < 256),
    (fun c : Byte => (48 ≤ c.val ∧ c.val ≤ 57) ∨ (65 ≤ c.val ∧ c.val ≤ 70))
      (strings.upperByte (hex.hextable.getD ((⟨n, hn⟩ : Byte).val >>> 4) 0)) ∧
    (fun c : Byte => (48 ≤ c.val ∧ c.val ≤ 57) ∨ (65 ≤ c.val ∧ c.val ≤ 70))
      (strings.upperByte (hex.hextable.getD ((⟨n, hn⟩ : Byte).val &&& 0x0f) 0)) := by
  decide!

theorem upperPair_chars (v : Byte) : ∀ ch ∈ strings.ToUpper (hex.encodeByte v),
    isUpperHexChar ch := by
  have h := upperPair_chars_aux v.val v.isLt
  intro ch hch
  simp only [strings.ToUpper, hex.encodeByte, List.map_cons, List.map_nil, List.mem_cons,
    List.mem_singleton, List.not_mem_nil, or_false] at hch
  rcases hch with rfl | rfl
  · exact h.1
  · exact h.2

theorem upperHex_chars (sha : Digest) : ∀ ch ∈ upperHex sha, isUpperHexChar ch := by
  intro ch hch
  rw [upperHex_eq, List.mem_flatMap] at hch
  obtain ⟨v, _, hv⟩ := hch
  exact upperPair_chars v ch hv

theorem flatMap_pair_length {α β : Type} (f : α → List β) (h : ∀ a, (f a).length = 2)
    (l : List α) : (l.flatMap f).length = 2 * l.length := by
  induction l with
  | nil => rfl
  | cons a t ih => simp [List.flatMap_cons, h, ih]; omega

theorem upperHex_length (sha : Digest) : (upperHex sha).length = 40 := by
  rw [upperHex_eq, flatMap_pair_length _ (fun _ => by simp [strings.ToUpper, hex.encodeByte]), sha.property]
  rfl

theorem prefixChars_length (sha : Digest) : (prefixChars sha).length = 5 := by
  simp [prefixChars, upperHex_length]

theorem suffixChars_length (sha : Digest) : (suffixChars sha).length = 35 := by
  simp [suffixChars, upperHex_length]

theorem prefixChars_chars (sha : Digest) : ∀ ch ∈ prefixChars sha, isUpperHexChar ch :=
  fun ch hch => upperHex_chars sha ch (List.mem_of_mem_take hch)

theorem suffixChars_chars (sha : Digest) : ∀ ch ∈ suffixChars sha, isUpperHexChar ch :=
  fun ch hch => upperHex_chars sha ch (List.mem_of_mem_drop hch)

theorem prefix_append_suffix (sha : Digest) : prefixChars sha ++ suffixChars sha = upperHex sha :=
  List.take_append_drop 5 _

theorem ensureCached_requests (c : Checker) (client : Client) (sha : Digest) :
    (ensureCached c client sha).requests =
      if c.seen (prefixKey sha) then [] else [rangeRequest sha] := by
  unfold ensureCached
  by_cases hs : c.seen (prefixKey sha) = true
  · simp [hs]
  · simp only [hs]
    cases hc : client (rangeRequest sha) with
    | error err => simp
    | ok resp =>
      rcases hl : scanLoop (prefixChars sha) c.pwned (bufio.ScanLines resp.Body) with ⟨m, _ | p⟩ <;>
        simp [hl]

theorem sha1_password : sha1.Sum (ofString "password") =
    ⟨[0x5B, 0xAA, 0x61, 0xE4, 0xC9, 0xB9, 0x3F, 0x3F, 0x06, 0x82, 0x25, 0x0B, 0x6C, 0xF8,
      0x33, 0x1B, 0x7E, 0xE6, 0x8F, 0xD8], rfl⟩ := by
  decide!

theorem sha1_hunter : sha1.Sum (ofString "hunter1129333") =
    ⟨[0x5B, 0xAA, 0x61, 0xB7, 0xA4, 0x1B, 0x81, 0x63, 0x62, 0x38, 0x3E, 0x11, 0x34, 0x50,
      0xD8, 0x8E, 0x39, 0x49, 0x3A, 0x58], rfl⟩ := by
  decide!

/-! ## Hex encoding and decoding are inverse to each other -/

set_option maxRecDepth 100000 in
theorem decode_encodeByte_aux : ∀ n (hn : n < 256),
    hex.fromHexChar (strings.upperByte (hex.hextable.getD ((⟨n, hn⟩ : Byte).val >>> 4) 0)) =
      some (n >>> 4) ∧
    hex.fromHexChar (strings.upperByte (hex.hextable.getD ((⟨n, hn⟩ : Byte).val &&& 0x0f) 0)) =
      some (n &&& 0x0f) ∧
    (Fin.ofNat ((n >>> 4) <<< 4 ||| (n &&& 0x0f)) : Byte) = ⟨n, hn⟩ := by
  decide!

theorem DecodeString_upper_encode (bs : Bytes) :
    hex.DecodeString (strings.ToUpper (hex.EncodeToString bs)) = .ok bs := by
  induction bs with
  | nil => rfl
  | cons v rest ih =>
    obtain ⟨h1, h2, h3⟩ := decode_encodeByte_aux v.val v.isLt
    have hcons : strings.ToUpper (hex.EncodeToString (v :: rest)) =
        strings.upperByte (hex.hextable.getD (v.val >>> 4) 0) ::
        strings.upperByte (hex.hextable.getD (v.val &&& 0x0f) 0) ::
        strings.ToUpper (hex.EncodeToString rest) := by
      simp [strings.ToUpper, hex.EncodeToString, hex.encodeByte]
    rw [hcons, hex.DecodeString]
    simp only [Fin.eta] at h1 h2 h3
    rw [h1, h2]
    simp only [ih, h3]

theorem upperHex_injective (d1 d2 : Digest) (h : upperHex d1 = upperHex d2) : d1 = d2 := by
  have h1 := DecodeString_upper_encode d1.val
  have h2 := DecodeString_upper_encode d2.val
  unfold upperHex at h
  rw [h, h2] at h1
  exact Subtype.ext (Except.ok.inj h1).symm

set_option maxRecDepth 100000 in
theorem upperHexChar_aux : ∀ n (hn : n < 256),
    ((48 ≤ n ∧ n ≤ 57) ∨ (65 ≤ n ∧ n ≤ 70)) →
    (if n ≤ 57 then n - 48 else n - 55) < 16 ∧
    strings.upperByte (hex.hextable.getD (if n ≤ 57 then n - 48 else n - 55) 0) =
      (⟨n, hn⟩ : Byte) := by
  decide!

set_option maxRecDepth 100000 in
theorem nibbles_aux : ∀ a (_ : a < 16) b (_ : b < 16),
    ((Fin.ofNat (a * 16 + b) : Byte).val >>> 4 = a) ∧
    ((Fin.ofNat (a * 16 + b) : Byte).val &&& 0x0f = b) := by
  decide!

theorem upper_encode_pair (p q : Byte) (hp : isUpperHexChar p) (hq : isUpperHexChar q) :
    ∃ v : Byte, strings.ToUpper (hex.encodeByte v) = [p, q] := by
  obtain ⟨ha, hpa⟩ := upperHexChar_aux p.val p.isLt hp
  obtain ⟨hb, hqb⟩ := upperHexChar_aux q.val q.isLt hq
  obtain ⟨h1, h2⟩ := nibbles_aux _ ha _ hb
  refine ⟨Fin.ofNat ((if p.val ≤ 57 then p.val - 48 else p.val - 55) * 16 +
    (if q.val ≤ 57 then q.val - 48 else q.val - 55)), ?_⟩
  simp only [strings.ToUpper, hex.encodeByte, List.map_cons, List.map_nil]
  rw [h1, h2, hpa, hqb]

theorem upper_encode_surjective (k : Nat) (h : Bytes) (hlen : h.length = 2 * k)
    (hchars : ∀ c ∈ h, isUpperHexChar c) :
    ∃ bs : Bytes, bs.length = k ∧ strings.ToUpper (hex.EncodeToString bs) = h := by
  induction k generalizing h with
  | zero =>
    refine ⟨[], rfl, ?_⟩
    have : h = [] := List.length_eq_zero.1 (by simpa using hlen)
    rw [this]; rfl
  | succ k ih =>
    match h, hlen with
    | p :: q :: rest, hlen =>
      obtain ⟨v, hv⟩ := upper_encode_pair p q
        (hchars p (by simp)) (hchars q (by simp))
      obtain ⟨bs, hbl, hbs⟩ := ih rest (by simp at hlen; omega)
        (fun c hc => hchars c (by simp [hc]))
      refine ⟨v :: bs, by simp [hbl], ?_⟩
      have : strings.ToUpper (hex.EncodeToString (v :: bs)) =
          strings.ToUpper (hex.encodeByte v) ++ strings.ToUpper (hex.EncodeToString bs) := by
        simp [strings.ToUpper, hex.EncodeToString]
      rw [this, hv, hbs]
      rfl
    | [_], hlen => simp at hlen; omega
    | [], hlen => simp at hlen

theorem copyToArray_of_length (n : Nat) (bs : Bytes) (h : bs.length = n) :
    copyToArray n bs = ⟨bs, h⟩ := by
  apply Subtype.ext
  simp only [copyToArray]
  rw [List.take_append_of_le_length (by omega), List.take_of_length_le (by omega)]

/-! ## Splitting, scrubbing and parsing a well-formed line -/

theorem Split_no_sep (sep : Byte) (b : Bytes) (hb : sep ∉ b) : strings.Split b sep = [b] := by
  induction b with
  | nil => rfl
  | cons c rest ih =>
    have hc : c ≠ sep := fun h => hb (by simp [h])
    have hr : sep ∉ rest := fun h => hb (by simp [h])
    rw [strings.Split, if_neg hc, ih hr]

theorem Split_append_sep (sep : Byte) (a b : Bytes) (ha : sep ∉ a) :
    strings.Split (a ++ sep :: b) sep = a :: strings.Split b sep := by
  induction a with
  | nil => simp [strings.Split]
  | cons c rest ih =>
    have hc : c ≠ sep := fun h => ha (by simp [h])
    have hr : sep ∉ rest := fun h => ha (by simp [h])
    rw [List.cons_append, strings.Split, if_neg hc, ih hr]

theorem scrub_upperHex (s : Bytes) (hs : ∀ c ∈ s, isUpperHexChar c) : scrub s = s := by
  unfold scrub
  rw [List.filter_eq_self]
  intro c hc
  have := hs c hc
  unfold isUpperHexChar at this
  simp only [ge_iff_le, Bool.or_eq_true, Bool.and_eq_true, decide_eq_true_eq]
  omega

theorem decimal_foldl_ge (s : Bytes) (n : Nat) :
    n ≤ s.foldl (fun n c => n * 10 + (c.val - 48)) n := by
  induction s generalizing n with
  | nil => exact Nat.le_refl _
  | cons c rest ih =>
    rw [List.foldl_cons]
    exact Nat.le_trans (by omega) (ih _)

theorem parseUintLoop_digits (s : Bytes) (n : Nat) (hd : ∀ c ∈ s, isDecimalDigit c)
    (hv : s.foldl (fun n c => n * 10 + (c.val - 48)) n < 2 ^ 64) :
    strconv.parseUintLoop n s = .ok (s.foldl (fun n c => n * 10 + (c.val - 48)) n) := by
  induction s generalizing n with
  | nil => rfl
  | cons c rest ih =>
    have hc : 48 ≤ c.val ∧ c.val ≤ 57 := hd c (by simp)
    rw [List.foldl_cons] at hv ⊢
    have hge := decimal_foldl_ge rest (n * 10 + (c.val - 48))
    rw [strconv.parseUintLoop, if_pos hc, if_neg (by omega), if_neg (by omega)]
    exact ih _ (fun x hx => hd x (by simp [hx])) hv

theorem ParseInt_digits (s : Bytes) (hne : s ≠ []) (hd : ∀ c ∈ s, isDecimalDigit c)
    (hv : decimalValue s < 2 ^ 63) : strconv.ParseInt s = .ok (decimalValue s : Int) := by
  cases s with
  | nil => exact absurd rfl hne
  | cons c rest =>
    have hc : 48 ≤ c.val ∧ c.val ≤ 57 := hd c (by simp)
    have h43 : c ≠ 43 := fun h => by rw [h] at hc; exact absurd hc (by decide)
    have h45 : c ≠ 45 := fun h => by rw [h] at hc; exact absurd hc (by decide)
    have hu : strconv.ParseUint (c :: rest) = .ok (decimalValue (c :: rest)) := by
      rw [strconv.ParseUint, if_neg (by simp)]
      exact parseUintLoop_digits _ 0 hd (by unfold decimalValue at hv; omega)
    have hv2 : ¬ decimalValue (c :: rest) ≥ 2 ^ 63 := Nat.not_le.2 hv
    unfold strconv.ParseInt
    simp only [h43, h45, or_self, if_false, decide_False, hu]
    rw [if_neg (fun h => hv2 h.2), if_neg (fun h => by simp at h)]
    simp

/-! ## A well-formed response -/

theorem colon_not_upperHex (s : Bytes) (hs : ∀ c ∈ s, isUpperHexChar c) : (58 : Byte) ∉ s := by
  intro h
  have := hs 58 h
  unfold isUpperHexChar at this
  revert this
  decide

theorem colon_not_digit (s : Bytes) (hs : ∀ c ∈ s, isDecimalDigit c) : (58 : Byte) ∉ s := by
  intro h
  have := hs 58 h
  unfold isDecimalDigit at this
  revert this
  decide

theorem scanLoop_wellFormed_line (P : Bytes) (hP5 : P.length = 5)
    (hPc : ∀ c ∈ P, isUpperHexChar c) (l : RangeLine) (hl : l.WellFormed) :
    ∃ d : Digest, upperHex d = P ++ l.suffix ∧
      ∀ m rest, scanLoop P m (l.text :: rest) =
        scanLoop P (mapSet m d (some (decimalValue l.count : Int))) rest := by
  obtain ⟨hlen, hsc, hne, hdc, hval⟩ := hl
  have hchars : ∀ c ∈ P ++ l.suffix, isUpperHexChar c := by
    intro c hc
    rcases List.mem_append.1 hc with h | h
    · exact hPc c h
    · exact hsc c h
  obtain ⟨bs, hbl, hbs⟩ := upper_encode_surjective 20 (P ++ l.suffix)
    (by rw [List.length_append, hP5, hlen]) hchars
  have hsplit : strings.Split l.text 58 = [l.suffix, l.count] := by
    unfold RangeLine.text
    rw [Split_append_sep 58 _ _ (colon_not_upperHex _ hsc),
      Split_no_sep 58 _ (colon_not_digit _ hdc)]
  have hdec : hex.DecodeString (scrub (P ++ l.suffix)) = .ok bs := by
    rw [scrub_upperHex _ hchars, ← hbs]
    exact DecodeString_upper_encode bs
  have hparse := ParseInt_digits l.count hne hdc hval
  refine ⟨⟨bs, hbl⟩, hbs, ?_⟩
  intro m rest
  rw [scanLoop]
  simp only [hsplit, hdec, hparse, copyToArray_of_length sha1.Size bs hbl]

theorem scanLoop_wellFormed (P : Bytes) (hP5 : P.length = 5)
    (hPc : ∀ c ∈ P, isUpperHexChar c) (entries : List RangeLine)
    (hwf : ∀ l ∈ entries, l.WellFormed) (m : Digest → Option Int) :
    (scanLoop P m (entries.map RangeLine.text)).2 = none ∧
    (∀ sum : Digest, (∀ l ∈ entries, P ++ l.suffix ≠ upperHex sum) →
      (scanLoop P m (entries.map RangeLine.text)).1 sum = m sum) ∧
    (∀ (sum : Digest) (l : RangeLine), l ∈ entries → P ++ l.suffix = upperHex sum →
      (entries.map RangeLine.suffix).Nodup →
      (scanLoop P m (entries.map RangeLine.text)).1 sum = some (decimalValue l.count : Int)) := by
  induction entries generalizing m with
  | nil =>
    refine ⟨rfl, fun _ _ => rfl, ?_⟩
    intro _ l hl
    cases hl
  | cons x xs ih =>
    obtain ⟨d, hd, hstep⟩ := scanLoop_wellFormed_line P hP5 hPc x (hwf x (by simp))
    have hwf' : ∀ l ∈ xs, l.WellFormed := fun l hl => hwf l (by simp [hl])
    obtain ⟨ih1, ih2, ih3⟩ := ih hwf' (mapSet m d (some (decimalValue x.count : Int)))
    rw [List.map_cons, hstep]
    refine ⟨ih1, ?_, ?_⟩
    · intro sum hno
      rw [ih2 sum (fun l hl => hno l (by simp [hl]))]
      have hne : sum ≠ d := by
        intro h
        apply hno x (by simp)
        rw [h, hd]
      simp [mapSet, hne]
    · intro sum l hl hsuf hnodup
      rw [List.map_cons, List.nodup_cons] at hnodup
      rcases List.mem_cons.1 hl with rfl | hl'
      · have hds : d = sum := upperHex_injective _ _ (hd.trans hsuf)
        rw [ih2 sum ?_]
        · simp [mapSet, hds]
        · intro l' hl' heq
          apply hnodup.1
          have : l'.suffix = l.suffix := List.append_cancel_left (heq.trans hsuf.symm)
          rw [← this]
          exact List.mem_map_of_mem _ hl'
      · exact ih3 sum l hl' hsuf hnodup.2

/-- C1: `Pwned` on the empty checker returns the listed count. For every plaintext and
every well-formed range response returned for its prefix (status 200, no scanner error,
every line 35 upper-case hex characters, a colon, and decimal digits that fit in an
`int64`, suffixes pairwise distinct), `Pwned` returns the count of the line whose suffix
is characters 6..40 of the upper-case hex form of the SHA-1 checksum, and returns 0 when
no line has that suffix. -/
theorem Pwned_returns_listed_count (pwd : Bytes) (client : Client) (resp : Response)
    (entries : List RangeLine)
    (hresp : client (rangeRequest (sha1.Sum pwd)) = .ok resp)
    (hstatus : resp.StatusCode = 200) (herr : resp.ScanErr = none)
    (hlines : bufio.ScanLines resp.Body = entries.map RangeLine.text)
    (hwf : ∀ l ∈ entries, l.WellFormed)
    (hdistinct : (entries.map RangeLine.suffix).Nodup) :
    (∀ l ∈ entries, l.suffix = (upperHex (sha1.Sum pwd)).drop 5 →
      (Pwned Checker.empty client pwd).outcome = .returned (decimalValue l.count : Int)) ∧
    ((∀ l ∈ entries, l.suffix ≠ (upperHex (sha1.Sum pwd)).drop 5) →
      (Pwned Checker.empty client pwd).outcome = .returned 0) := by
  have _ := hstatus
  obtain ⟨h1, h2, h3⟩ := scanLoop_wellFormed (prefixChars (sha1.Sum pwd))
    (prefixChars_length _) (prefixChars_chars _) entries hwf (fun _ => none)
  have hrun : ensureCached Checker.empty client (sha1.Sum pwd) =
      ⟨{ seen := mapSet Checker.empty.seen (prefixKey (sha1.Sum pwd)) true,
         pwned := (scanLoop (prefixChars (sha1.Sum pwd)) (fun _ => none)
           (entries.map RangeLine.text)).1 },
        [rangeRequest (sha1.Sum pwd)], .returned none⟩ := by
    rw [ensureCached_miss Checker.empty client _ resp rfl hresp, hlines, herr]
    simp only [Checker.empty]
    rcases hs : scanLoop (prefixChars (sha1.Sum pwd)) (fun _ => none)
      (entries.map RangeLine.text) with ⟨m, o⟩
    rw [hs] at h1
    simp only at h1
    subst h1
    rfl
  have hout : (Pwned Checker.empty client pwd).outcome = .returned
      (((scanLoop (prefixChars (sha1.Sum pwd)) (fun _ => none)
        (entries.map RangeLine.text)).1 (sha1.Sum pwd)).getD 0) := by
    unfold Pwned
    simp only [hrun, Checker.count]
  rw [hout]
  refine ⟨?_, ?_⟩
  · intro l hl hsuf
    have heq : prefixChars (sha1.Sum pwd) ++ l.suffix = upperHex (sha1.Sum pwd) := by
      rw [hsuf]
      exact prefix_append_suffix _
    rw [h3 _ l hl heq hdistinct]
    rfl
  · intro hno
    rw [h2 (sha1.Sum pwd) ?_]
    · rfl
    · intro l hl heq
      apply hno l hl
      have := (prefix_append_suffix (sha1.Sum pwd)).symm ▸ heq
      exact List.append_cancel_left this

theorem Pwned_returns_listed_count_witness :
    (Pwned Checker.empty
      (fun _ => .ok ⟨200, ofString
        "0018A45C4D1DEF81644B54AB7F969B88D65:1\r\n1E4C9B93F3F0682250B6CF8331B7EE68FD8:7\r\n",
        none⟩)
      (ofString "password")).outcome = .returned 7 :=
  (Pwned_returns_listed_count (ofString "password")
    (fun _ => .ok ⟨200, ofString
      "0018A45C4D1DEF81644B54AB7F969B88D65:1\r\n1E4C9B93F3F0682250B6CF8331B7EE68FD8:7\r\n",
      none⟩)
    ⟨200, ofString
      "0018A45C4D1DEF81644B54AB7F969B88D65:1\r\n1E4C9B93F3F0682250B6CF8331B7EE68FD8:7\r\n",
      none⟩
    [⟨ofString "0018A45C4D1DEF81644B54AB7F969B88D65", ofString "1"⟩,
     ⟨ofString "1E4C9B93F3F0682250B6CF8331B7EE68FD8", ofString "7"⟩]
    rfl rfl rfl (by decide!)
    (by
      intro l hl
      simp only [List.mem_cons, List.mem_singleton, List.not_mem_nil, or_false] at hl
      rcases hl with rfl | rfl <;>
        · simp only [RangeLine.WellFormed, isUpperHexChar, isDecimalDigit]
          decide!)
    (by decide!)).1
    ⟨ofString "1E4C9B93F3F0682250B6CF8331B7EE68FD8", ofString "7"⟩
    (by simp) (by rw [sha1_password]; decide!)

/-! ## The request -/

/-- C2: the request of `ensureCached` depends on the checksum only through the first five
characters of its upper-case hex form. Two checksums sharing these characters, started
from the same state, both issue no request or both issue the same single request, a GET
to `https://api.pwnedpasswords.com/range/` followed by exactly these five characters,
each of which is one of `0`..`9`, `A`..`F`. -/
theorem ensureCached_request_from_prefix_only (c : Checker) (client : Client) (h1 h2 : Digest)
    (hshare : (upperHex h1).take 5 = (upperHex h2).take 5) :
    (ensureCached c client h1).requests = (ensureCached c client h2).requests ∧
    ((ensureCached c client h1).requests = [] ∨
      (ensureCached c client h1).requests =
        [⟨"GET", ofString "https://api.pwnedpasswords.com/range/" ++ (upperHex h1).take 5⟩]) ∧
    ((upperHex h1).take 5).length = 5 ∧
    ∀ ch ∈ (upperHex h1).take 5, isUpperHexChar ch := by
  have hk : prefixKey h1 = prefixKey h2 := prefixKey_eq_of_chars h1 h2 hshare
  have hr : rangeRequest h1 = rangeRequest h2 := by
    unfold rangeRequest prefixChars; rw [hshare]
  refine ⟨?_, ?_, prefixChars_length h1, prefixChars_chars h1⟩
  · rw [ensureCached_requests, ensureCached_requests, hk, hr]
  · rw [ensureCached_requests]
    by_cases hs : c.seen (prefixKey h1) = true
    · left; simp [hs]
    · right; simp [hs, rangeRequest, prefixChars]

theorem ensureCached_request_from_prefix_only_witness :
    sha1.Sum (ofString "password") ≠ sha1.Sum (ofString "hunter1129333") ∧
    (ensureCached Checker.empty (fun _ => .error (.transport "down"))
        (sha1.Sum (ofString "password"))).requests =
      [⟨"GET", ofString "https://api.pwnedpasswords.com/range/5BAA6"⟩] ∧
    (ensureCached Checker.empty (fun _ => .error (.transport "down"))
        (sha1.Sum (ofString "hunter1129333"))).requests =
      [⟨"GET", ofString "https://api.pwnedpasswords.com/range/5BAA6"⟩] := by
  have h := ensureCached_request_from_prefix_only Checker.empty
    (fun _ => .error (.transport "down")) (sha1.Sum (ofString "password"))
    (sha1.Sum (ofString "hunter1129333")) (by rw [sha1_password, sha1_hunter]; decide!)
  rw [sha1_password, sha1_hunter] at h ⊢
  refine ⟨by decide!, ?_, ?_⟩
  · rcases h.2.1 with h0 | h1
    · exact absurd h0 (by decide!)
    · rw [h1]; decide!
  · rw [← h.1]
    rcases h.2.1 with h0 | h1
    · exact absurd h0 (by decide!)
    · rw [h1]; decide!

/-! ## One fetch per prefix, idempotence -/

/-- C3: single fetch per prefix. If `Pwned(P1)` returns, then a following `Pwned(P2)` for
a plaintext whose checksum shares the five-character prefix issues no request, whatever
the state before the first call and whether or not the checksum of `P2` was listed; it
returns the count stored for `P2` (zero when absent). The statement needs no
hypothesis `P1 ≠ P2`. -/
theorem Pwned_second_query_no_request (c : Checker) (client1 client2 : Client)
    (P1 P2 : Bytes) (n : Int)
    (hshare : (upperHex (sha1.Sum P1)).take 5 = (upperHex (sha1.Sum P2)).take 5)
    (hok : (Pwned c client1 P1).outcome = .returned n) :
    (Pwned (Pwned c client1 P1).checker client2 P2).requests = [] ∧
    (Pwned (Pwned c client1 P1).checker client2 P2).outcome =
      .returned ((Pwned c client1 P1).checker.count (sha1.Sum P2)) ∧
    (Pwned (Pwned c client1 P1).checker client2 P2).checker = (Pwned c client1 P1).checker := by
  have h1 := (Pwned_returned c client1 P1 n hok).1
  have hseen := ensureCached_returned_seen c client1 (sha1.Sum P1) none h1
  rw [← Pwned_checker, prefixKey_eq_of_chars _ _ hshare] at hseen
  rw [Pwned_hit _ client2 P2 hseen]
  exact ⟨rfl, rfl, rfl⟩

theorem Pwned_second_query_no_request_witness :
    ofString "password" ≠ ofString "hunter1129333" ∧
    (Pwned (Pwned Checker.empty
        (fun _ => .ok ⟨200, ofString "1E4C9B93F3F0682250B6CF8331B7EE68FD8:7", none⟩)
        (ofString "password")).checker
      (fun _ => .error (.transport "down")) (ofString "hunter1129333")).requests = [] :=
  ⟨by decide,
   (Pwned_second_query_no_request Checker.empty
      (fun _ => .ok ⟨200, ofString "1E4C9B93F3F0682250B6CF8331B7EE68FD8:7", none⟩)
      (fun _ => .error (.transport "down")) (ofString "password") (ofString "hunter1129333") 7
      (by rw [sha1_password, sha1_hunter]; decide!)
      (by unfold Pwned; rw [sha1_password]; decide!)).1⟩

theorem repeatPwned_fixed (clients : Nat → Client) (pwd : Bytes) (s : Checker)
    (hseen : s.seen (prefixKey (sha1.Sum pwd)) = true) (k : Nat) :
    repeatPwned clients pwd k s =
      List.replicate k ⟨s, [], .returned (s.count (sha1.Sum pwd))⟩ := by
  induction k with
  | zero => rfl
  | succ k ih =>
    rw [repeatPwned, Pwned_hit s _ pwd hseen, List.replicate_succ]
    exact congrArg _ ih

/-- C4: `Pwned` is idempotent. If `Pwned(p)` returns the count `n` (from any state, in
particular from a state reached from the empty checker), then each of any number `k` of
further calls `Pwned(p)` returns `n`, issues no request, and leaves both maps as they
were. -/
theorem Pwned_idempotent (c : Checker) (client : Client) (pwd : Bytes) (n : Int)
    (hok : (Pwned c client pwd).outcome = .returned n) (clients : Nat → Client) (k : Nat) :
    (repeatPwned clients pwd k (Pwned c client pwd).checker).length = k ∧
    ∀ r ∈ repeatPwned clients pwd k (Pwned c client pwd).checker,
      r.outcome = .returned n ∧ r.requests = [] ∧
        r.checker.seen = (Pwned c client pwd).checker.seen ∧
        r.checker.pwned = (Pwned c client pwd).checker.pwned := by
  obtain ⟨h1, hn⟩ := Pwned_returned c client pwd n hok
  have hseen := ensureCached_returned_seen c client (sha1.Sum pwd) none h1
  rw [← Pwned_checker] at hseen hn
  rw [repeatPwned_fixed clients pwd _ hseen k]
  refine ⟨List.length_replicate _ _, ?_⟩
  intro r hr
  rw [List.eq_of_mem_replicate hr, hn]
  exact ⟨rfl, rfl, rfl, rfl⟩

theorem Pwned_idempotent_witness :
    (repeatPwned (fun _ => fun _ => .error (.transport "down")) (ofString "password") 3
        (Pwned Checker.empty
          (fun _ => .ok ⟨200, ofString "1E4C9B93F3F0682250B6CF8331B7EE68FD8:7", none⟩)
          (ofString "password")).checker).length = 3 ∧
    (Pwned
        (Pwned Checker.empty
          (fun _ => .ok ⟨200, ofString "1E4C9B93F3F0682250B6CF8331B7EE68FD8:7", none⟩)
          (ofString "password")).checker
        (fun _ => .error (.transport "down")) (ofString "password")).outcome = .returned 7 ∧
    (Pwned
        (Pwned Checker.empty
          (fun _ => .ok ⟨200, ofString "1E4C9B93F3F0682250B6CF8331B7EE68FD8:7", none⟩)
          (ofString "password")).checker
        (fun _ => .error (.transport "down")) (ofString "password")).requests = [] :=
  have h := Pwned_idempotent Checker.empty
    (fun _ => .ok ⟨200, ofString "1E4C9B93F3F0682250B6CF8331B7EE68FD8:7", none⟩)
    (ofString "password") 7 (by unfold Pwned; rw [sha1_password]; decide!)
    (fun _ => fun _ => .error (.transport "down")) 3
  have hr := h.2 _ (List.mem_cons_self _ _)
  ⟨h.1, hr.1, hr.2.1⟩

/-! ## The synthetic response, signed counts, lower-case suffixes -/

theorem scanLoop_syntheticBody :
    scanLoop (ofString "5BAA6") (fun _ => none) (bufio.ScanLines syntheticBody) =
      (mapSet (fun _ => none) syntheticFirst (some 1), some (.hex .ErrLength)) := by
  rfl

theorem scanLoop_syntheticBodyFull :
    scanLoop (ofString "5BAA6") (fun _ => none) (bufio.ScanLines syntheticBodyFull) =
      (mapSet (mapSet (fun _ => none) syntheticFirst (some 1)) syntheticSecond (some 3),
        none) := by
  rfl

/-- C5, as the code behaves. For a checksum with prefix `5BAA6` and the empty checker: on
the body as the specification gives it, the second line has a 34-character suffix, so the
fetch panics with `hex.ErrLength` after the first line was stored (lookup 1 for
`5BAA6` `0018A45C4D1DEF81644B54AB7F969B88D65`, 0 for every other checksum) and the prefix
is not marked; on the body with the second suffix completed to 35 characters
(`003D68EB55068C33ACE09247EE4C639306B`) the fetch returns nil, marks the prefix, and the
lookup yields 1 for the first checksum, 3 for the second and 0 for every other one. -/
theorem ensureCached_synthetic_response (clientA clientB : Client) (sha : Digest)
    (status : Nat) (hpfx : prefixChars sha = ofString "5BAA6")
    (hA : clientA (rangeRequest sha) = .ok ⟨status, syntheticBody, none⟩)
    (hB : clientB (rangeRequest sha) = .ok ⟨status, syntheticBodyFull, none⟩) :
    ((ensureCached Checker.empty clientA sha).outcome = .panicked (.hex .ErrLength) ∧
      (ensureCached Checker.empty clientA sha).checker.seen (prefixKey sha) = false ∧
      (ensureCached Checker.empty clientA sha).checker.count syntheticFirst = 1 ∧
      ∀ d, d ≠ syntheticFirst → (ensureCached Checker.empty clientA sha).checker.count d = 0) ∧
    ((ensureCached Checker.empty clientB sha).outcome = .returned none ∧
      (ensureCached Checker.empty clientB sha).checker.seen (prefixKey sha) = true ∧
      (ensureCached Checker.empty clientB sha).checker.count syntheticFirst = 1 ∧
      (ensureCached Checker.empty clientB sha).checker.count syntheticSecond = 3 ∧
      ∀ d, d ≠ syntheticFirst → d ≠ syntheticSecond →
        (ensureCached Checker.empty clientB sha).checker.count d = 0) ∧
    upperHex syntheticFirst = ofString "5BAA60018A45C4D1DEF81644B54AB7F969B88D65" ∧
    upperHex syntheticSecond = ofString "5BAA6003D68EB55068C33ACE09247EE4C639306B" := by
  refine ⟨?_, ?_, by decide!, by decide!⟩
  · rw [ensureCached_miss Checker.empty clientA sha _ rfl hA, hpfx]
    have h := scanLoop_syntheticBody
    simp only [Checker.empty] at h ⊢
    rw [h]
    refine ⟨rfl, rfl, ?_, ?_⟩
    · simp [Checker.count, mapSet]
    · intro d hd
      simp [Checker.count, mapSet, hd]
  · rw [ensureCached_miss Checker.empty clientB sha _ rfl hB, hpfx]
    have h := scanLoop_syntheticBodyFull
    simp only [Checker.empty] at h ⊢
    rw [h]
    have hne : syntheticFirst ≠ syntheticSecond := by decide
    refine ⟨rfl, by simp [mapSet], ?_, ?_, ?_⟩
    · simp [Checker.count, mapSet, hne]
    · simp [Checker.count, mapSet]
    · intro d hd1 hd2
      simp [Checker.count, mapSet, hd1, hd2]

theorem ensureCached_synthetic_response_witness :
    (ensureCached Checker.empty (fun _ => .ok ⟨200, syntheticBodyFull, none⟩)
        (sha1.Sum (ofString "password"))).checker.count syntheticSecond = 3 :=
  (ensureCached_synthetic_response (fun _ => .ok ⟨200, syntheticBody, none⟩)
    (fun _ => .ok ⟨200, syntheticBodyFull, none⟩) (sha1.Sum (ofString "password")) 200
    (by rw [sha1_password]; decide!) rfl rfl).2.1.2.2.2.1

/-- C5, counterexample: the empty checker, the checksum of `password` (prefix `5BAA6`) and
the body exactly as given. The fetch does not complete: `ensureCached` panics with
`hex.ErrLength`, and `Pwned` returns no count. -/
theorem ensureCached_synthetic_body_panics :
    prefixChars (sha1.Sum (ofString "password")) = ofString "5BAA6" ∧
    (ensureCached Checker.empty (fun _ => .ok ⟨200, syntheticBody, none⟩)
        (sha1.Sum (ofString "password"))).outcome = .panicked (.hex .ErrLength) ∧
    (Pwned Checker.empty (fun _ => .ok ⟨200, syntheticBody, none⟩)
        (ofString "password")).outcome = .panicked (.hex .ErrLength) := by
  unfold Pwned
  rw [sha1_password]
  decide!

theorem ParseInt_nonneg (s : Bytes) (v : Int) (h : strconv.ParseInt s = .ok v)
    (hsign : s.head? ≠ some 45) : 0 ≤ v := by
  cases s with
  | nil => simp [strconv.ParseInt] at h
  | cons c rest =>
    have hc : c ≠ 45 := by simpa using hsign
    unfold strconv.ParseInt at h
    simp only [hc, decide_False, or_false] at h
    split at h
    · cases h
    · cases h
    · rename_i un _
      split at h
      · cases h
      · split at h
        · cases h
        · simp at h
          rw [← h]
          exact Int.natCast_nonneg un

theorem scanLoop_nonneg (pfx : Bytes) (lines : List Bytes)
    (hlines : ∀ line ∈ lines, ∀ p0 p1, strings.Split line 58 = [p0, p1] → p1.head? ≠ some 45)
    (m : Digest → Option Int) (hm : ∀ d v, m d = some v → 0 ≤ v) :
    ∀ d v, (scanLoop pfx m lines).1 d = some v → 0 ≤ v := by
  induction lines generalizing m with
  | nil => exact hm
  | cons line rest ih =>
    unfold scanLoop
    split
    · rename_i part0 part1 hsplit
      split
      · exact hm
      · split
        · exact hm
        · rename_i count hparse
          apply ih (fun l hl => hlines l (List.mem_cons_of_mem _ hl))
          intro d v hd
          unfold mapSet at hd
          split at hd
          · cases hd
            exact ParseInt_nonneg part1 _ hparse
              (hlines line (List.mem_cons_self _ _) part0 part1 hsplit)
          · exact hm d v hd
    · exact hm

/-- C6, as the code behaves: the count is the signed integer `strconv.ParseInt` reads, so
a count field with a minus sign is stored and returned as a negative number. The count
`Pwned` returns is non-negative when the maps of the checker hold no negative count and
no count field of the response starts with `-`. -/
theorem Pwned_nonneg_of_unsigned_counts (c : Checker) (client : Client) (pwd : Bytes)
    (n : Int) (hstate : ∀ d v, c.pwned d = some v → 0 ≤ v)
    (hlines : ∀ resp, client (rangeRequest (sha1.Sum pwd)) = .ok resp →
      ∀ line ∈ bufio.ScanLines resp.Body, ∀ p0 p1,
        strings.Split line 58 = [p0, p1] → p1.head? ≠ some 45)
    (hok : (Pwned c client pwd).outcome = .returned n) : 0 ≤ n := by
  obtain ⟨_, hn⟩ := Pwned_returned c client pwd n hok
  have hinv : ∀ d v, (ensureCached c client (sha1.Sum pwd)).checker.pwned d = some v →
      0 ≤ v := by
    unfold ensureCached
    by_cases hs : c.seen (prefixKey (sha1.Sum pwd)) = true
    · simpa [hs] using hstate
    · simp only [hs]
      cases hc : client (rangeRequest (sha1.Sum pwd)) with
      | error err => simpa using hstate
      | ok resp =>
        have h := scanLoop_nonneg (prefixChars (sha1.Sum pwd)) _ (hlines resp hc) c.pwned hstate
        rcases hl : scanLoop (prefixChars (sha1.Sum pwd)) c.pwned
          (bufio.ScanLines resp.Body) with ⟨m, _ | p⟩ <;>
          · rw [hl] at h
            simpa [hl] using h
  rw [hn]
  unfold Checker.count
  cases hv : (ensureCached c client (sha1.Sum pwd)).checker.pwned (sha1.Sum pwd) with
  | none => simp
  | some v => simpa using hinv _ v hv

theorem Pwned_nonneg_of_unsigned_counts_witness :
    (Pwned Checker.empty
        (fun _ => .ok ⟨200, ofString "1E4C9B93F3F0682250B6CF8331B7EE68FD8:7", none⟩)
        (ofString "password")).outcome = .returned 7 ∧ (0 : Int) ≤ 7 :=
  ⟨by unfold Pwned; rw [sha1_password]; decide!,
   Pwned_nonneg_of_unsigned_counts Checker.empty
    (fun _ => .ok ⟨200, ofString "1E4C9B93F3F0682250B6CF8331B7EE68FD8:7", none⟩)
    (ofString "password") 7 (fun _ _ h => by cases h)
    (fun resp h => by
      cases h
      intro line hl p0 p1 hsp
      have hL : bufio.ScanLines (ofString "1E4C9B93F3F0682250B6CF8331B7EE68FD8:7") =
          [ofString "1E4C9B93F3F0682250B6CF8331B7EE68FD8:7"] := by decide!
      rw [hL, List.mem_singleton] at hl
      subst hl
      have hS : strings.Split (ofString "1E4C9B93F3F0682250B6CF8331B7EE68FD8:7") 58 =
          [ofString "1E4C9B93F3F0682250B6CF8331B7EE68FD8", ofString "7"] := by decide!
      rw [hS] at hsp
      simp only [List.cons.injEq, and_true] at hsp
      rw [← hsp.2]
      decide)
    (by unfold Pwned; rw [sha1_password]; decide!)⟩

/-- C6, counterexample: the empty checker, the plaintext `password` and a response whose
only line carries the count field `-5`. The call completes and returns -5. -/
theorem Pwned_negative_count :
    (Pwned Checker.empty
        (fun _ => .ok ⟨200, ofString "1E4C9B93F3F0682250B6CF8331B7EE68FD8:-5", none⟩)
        (ofString "password")).outcome = .returned (-5) ∧ ¬ (0 : Int) ≤ -5 := by
  unfold Pwned
  rw [sha1_password]
  decide!

/-- C7, the code at failing inputs. The third range test of `scrub` (`c >= 'a' && c <=
'Z'`) never holds, so lower-case letters are dropped. For prefix `5BAA6`: the upper-case
line stores count 7 under the checksum of `password`; the same line in lower case leaves
an odd number of characters and the loop panics with `hex.ErrLength`; another lower-case
line leaves an even number, is accepted, and stores its count under a different,
zero-padded key. -/
theorem scanLoop_lower_case_suffix :
    scrub (ofString "5BAA61e4c9b93f3f0682250b6cf8331b7ee68fd8") =
      ofString "5BAA61499330682250683317688" ∧
    scanLoop (ofString "5BAA6") (fun _ => none)
        [ofString "1E4C9B93F3F0682250B6CF8331B7EE68FD8:7"] =
      (mapSet (fun _ => none)
        ⟨[0x5B, 0xAA, 0x61, 0xE4, 0xC9, 0xB9, 0x3F, 0x3F, 0x06, 0x82, 0x25, 0x0B, 0x6C, 0xF8,
          0x33, 0x1B, 0x7E, 0xE6, 0x8F, 0xD8], rfl⟩ (some 7), none) ∧
    scanLoop (ofString "5BAA6") (fun _ => none)
        [ofString "1e4c9b93f3f0682250b6cf8331b7ee68fd8:7"] =
      (fun _ => none, some (.hex .ErrLength)) ∧
    scanLoop (ofString "5BAA6") (fun _ => none)
        [ofString "0018A45C4D1DEF81644B54AB7F969B88D65:1"] =
      (mapSet (fun _ => none) syntheticFirst (some 1), none) ∧
    scanLoop (ofString "5BAA6") (fun _ => none)
        [ofString "0018a45c4d1def81644b54ab7f969b88d65:1"] =
      (mapSet (fun _ => none)
        ⟨[0x5B, 0xAA, 0x60, 0x01, 0x84, 0x54, 0x18, 0x16, 0x44, 0x54, 0x79, 0x69, 0x88, 0x65,
          0, 0, 0, 0, 0, 0], rfl⟩ (some 1), none) :=
  ⟨by decide!, rfl, rfl, rfl, rfl⟩

/-! ## Failures: stream error, malformed line -/

/-- C9, the code at a failing input: the empty checker, the checksum of `password`, and a
body of one well-formed line after which the scanner reports an error. `ensureCached`
returns that error, yet the prefix is in the prefix set, so that the next call for this
prefix issues no request and returns nil. -/
theorem ensureCached_stream_error_marks_seen :
    (ensureCached Checker.empty
        (fun _ => .ok ⟨200, ofString "0018A45C4D1DEF81644B54AB7F969B88D65:1\n",
          some (.scan "unexpected EOF")⟩)
        (sha1.Sum (ofString "password"))).outcome = .returned (some (.scan "unexpected EOF")) ∧
    (ensureCached Checker.empty
        (fun _ => .ok ⟨200, ofString "0018A45C4D1DEF81644B54AB7F969B88D65:1\n",
          some (.scan "unexpected EOF")⟩)
        (sha1.Sum (ofString "password"))).checker.seen
          (prefixKey (sha1.Sum (ofString "password"))) = true ∧
    (ensureCached
        (ensureCached Checker.empty
          (fun _ => .ok ⟨200, ofString "0018A45C4D1DEF81644B54AB7F969B88D65:1\n",
            some (.scan "unexpected EOF")⟩)
          (sha1.Sum (ofString "password"))).checker
        (fun _ => .error (.transport "down"))
        (sha1.Sum (ofString "password"))).requests = [] := by
  rw [sha1_password]
  decide!

theorem scanLoop_malformed (pfx : Bytes) (lines : List Bytes)
    (hbad : ∃ line ∈ lines, Malformed pfx line) (m : Digest → Option Int) :
    ∃ p, (scanLoop pfx m lines).2 = some p := by
  induction lines generalizing m with
  | nil => obtain ⟨l, hl, _⟩ := hbad; cases hl
  | cons line rest ih =>
    unfold scanLoop
    split
    · rename_i part0 part1 hsplit
      split
      · exact ⟨_, rfl⟩
      · rename_i hash hdec
        split
        · exact ⟨_, rfl⟩
        · rename_i count hparse
          apply ih
          obtain ⟨l, hl, hm⟩ := hbad
          rcases List.mem_cons.1 hl with rfl | hl'
          · exfalso
            unfold Malformed at hm
            rw [hsplit] at hm
            simp [hdec, hparse] at hm
          · exact ⟨l, hl', hm⟩
    · exact ⟨_, rfl⟩

end hibp

namespace hibp
open sha1 (Digest)

/-! ## Noise before the suffix -/

theorem scrub_append (a b : Bytes) : scrub (a ++ b) = scrub a ++ scrub b := by
  unfold scrub
  exact List.filter_append _ _

theorem scrub_noise (z : Bytes) (hz : ∀ c ∈ z, isAlphanumeric c = false) : scrub z = [] := by
  unfold scrub
  rw [List.filter_eq_nil_iff]
  intro c hc
  have := hz c hc
  unfold isAlphanumeric at this
  simp only [Bool.or_eq_false_iff, Bool.and_eq_false_imp, decide_eq_true_eq,
    decide_eq_false_iff_not] at this
  simp only [ge_iff_le, Bool.or_eq_true, Bool.and_eq_true, decide_eq_true_eq]
  omega

/-- C11: leading noise is tolerated. For a line `z ++ s ++ ":" ++ n` where `s` is made of
upper-case hex characters and `z` only of bytes that are neither ASCII letters or digits
nor `:`, the loop body does exactly what it does for the line `s ++ ":" ++ n`, whatever
the count field `n`; when `s` has 35 characters and `n` is a decimal count fitting an
`int64`, both succeed and store the count under the checksum whose upper-case hex form is
the prefix followed by `s`. -/
theorem scanLoop_leading_noise (P s n z : Bytes)
    (hs : ∀ c ∈ s, isUpperHexChar c)
    (hz : ∀ c ∈ z, isAlphanumeric c = false ∧ c ≠ 58) :
    (∀ m rest, scanLoop P m ((z ++ s ++ 58 :: n) :: rest) =
      scanLoop P m ((s ++ 58 :: n) :: rest)) ∧
    (P.length = 5 → (∀ c ∈ P, isUpperHexChar c) → (RangeLine.mk s n).WellFormed →
      ∃ d : Digest, upperHex d = P ++ s ∧
        ∀ m rest, scanLoop P m ((z ++ s ++ 58 :: n) :: rest) =
          scanLoop P (mapSet m d (some (decimalValue n : Int))) rest) := by
  have hzs : (58 : Byte) ∉ z ++ s := by
    intro h
    rcases List.mem_append.1 h with h | h
    · exact (hz 58 h).2 rfl
    · exact colon_not_upperHex s hs h
  have hsplit1 : strings.Split (z ++ s ++ 58 :: n) 58 = (z ++ s) :: strings.Split n 58 :=
    Split_append_sep 58 _ _ hzs
  have hsplit2 : strings.Split (s ++ 58 :: n) 58 = s :: strings.Split n 58 :=
    Split_append_sep 58 _ _ (colon_not_upperHex s hs)
  have hscrub : scrub (P ++ (z ++ s)) = scrub (P ++ s) := by
    rw [scrub_append, scrub_append, scrub_append, scrub_noise z (fun c hc => (hz c hc).1),
      List.nil_append]
  have hsame : ∀ m rest, scanLoop P m ((z ++ s ++ 58 :: n) :: rest) =
      scanLoop P m ((s ++ 58 :: n) :: rest) := by
    intro m rest
    conv_lhs => rw [scanLoop, hsplit1]
    conv_rhs => rw [scanLoop, hsplit2]
    rcases strings.Split n 58 with _ | ⟨a, _ | ⟨b, t⟩⟩ <;> simp only [hscrub]
  refine ⟨hsame, ?_⟩
  intro hP5 hPc hwf
  obtain ⟨d, hd, hstep⟩ := scanLoop_wellFormed_line P hP5 hPc ⟨s, n⟩ hwf
  refine ⟨d, hd, ?_⟩
  intro m rest
  rw [hsame]
  exact hstep m rest

theorem scanLoop_leading_noise_witness :
    scanLoop (ofString "5BAA6") (fun _ => none)
        [[0xEF, 0xBB, 0xBF] ++ ofString "0018A45C4D1DEF81644B54AB7F969B88D65" ++
          58 :: ofString "1"] =
      scanLoop (ofString "5BAA6") (fun _ => none)
        [ofString "0018A45C4D1DEF81644B54AB7F969B88D65" ++ 58 :: ofString "1"] :=
  (scanLoop_leading_noise (ofString "5BAA6") (ofString "0018A45C4D1DEF81644B54AB7F969B88D65")
    (ofString "1") [0xEF, 0xBB, 0xBF]
    (by
      simp only [isUpperHexChar]
      decide!)
    (by decide!)).1 _ _

/-- C19, the code at a failing input, and what `scrub` computes: it keeps exactly the
digits and the upper-case letters, in order. Lower-case letters are alphanumeric, yet
`scrub` removes them: of `Ab1-z_9` it keeps `A19`, where the alphanumeric bytes are
`Ab1z9`. -/
theorem scrub_drops_lower_case :
    scrub (ofString "Ab1-z_9") = ofString "A19" ∧
    (ofString "Ab1-z_9").filter isAlphanumeric = ofString "Ab1z9" ∧
    (∀ s : Bytes, scrub s =
      s.filter (fun c => (48 ≤ c.val && c.val ≤ 57) || (65 ≤ c.val && c.val ≤ 90))) ∧
    (∀ s : Bytes, ∀ c ∈ scrub s, ¬ (97 ≤ c.val ∧ c.val ≤ 122)) := by
  have hfilter : ∀ s : Bytes, scrub s =
      s.filter (fun c => (48 ≤ c.val && c.val ≤ 57) || (65 ≤ c.val && c.val ≤ 90)) := by
    intro s
    unfold scrub
    apply List.filter_congr
    intro c _
    have h : (decide (c.val ≥ 97) && decide (c.val ≤ 90)) = false := by
      simp only [ge_iff_le, Bool.and_eq_false_imp, decide_eq_true_eq, decide_eq_false_iff_not]
      omega
    simp only [ge_iff_le] at h ⊢
    rw [h, Bool.or_false]
  refine ⟨by decide!, by decide!, hfilter, ?_⟩
  intro s c hc
  rw [hfilter, List.mem_filter] at hc
  have := hc.2
  simp only [Bool.or_eq_true, Bool.and_eq_true, decide_eq_true_eq] at this
  omega

end hibp

namespace hibp
open sha1 (Digest)

/-! ## Every stored key lies under the fetched prefix -/

theorem DecodeString_cons_cons (p q : Byte) (rest hash : Bytes)
    (h : hex.DecodeString (p :: q :: rest) = .ok hash) :
    ∃ a b hash', hex.fromHexChar p = some a ∧ hex.fromHexChar q = some b ∧
      hex.DecodeString rest = .ok hash' ∧ hash = (Fin.ofNat (a <<< 4 ||| b) : Byte) :: hash' := by
  rw [hex.DecodeString] at h
  cases hp : hex.fromHexChar p with
  | none => simp [hp] at h
  | some a =>
    cases hq : hex.fromHexChar q with
    | none => simp [hp, hq] at h
    | some b =>
      cases hr : hex.DecodeString rest with
      | error e => simp [hp, hq, hr] at h
      | ok hash' =>
        simp only [hp, hq, hr, Except.ok.injEq] at h
        exact ⟨a, b, hash', rfl, rfl, rfl, h.symm⟩

theorem DecodeString_singleton (p : Byte) (hash : Bytes) :
    hex.DecodeString [p] ≠ .ok hash := by
  intro h
  rw [hex.DecodeString] at h
  cases hp : hex.fromHexChar p <;> simp [hp] at h

set_option maxRecDepth 100000 in
theorem fromHexChar_aux : ∀ n (hn : n < 256),
    ((hex.fromHexChar ⟨n, hn⟩).all (fun a => decide (a < 16) &&
      decide (strings.upperByte (hex.hextable.getD a 0) = strings.upperByte ⟨n, hn⟩))) = true := by
  decide!

theorem fromHexChar_some (c : Byte) (a : Nat) (h : hex.fromHexChar c = some a) :
    a < 16 ∧ strings.upperByte (hex.hextable.getD a 0) = strings.upperByte c := by
  have := fromHexChar_aux c.val c.isLt
  simp only [Fin.eta] at this
  rw [h] at this
  simpa using this

set_option maxRecDepth 100000 in
theorem nibbles_shift_aux : ∀ a (_ : a < 16) b (_ : b < 16),
    ((Fin.ofNat (a <<< 4 ||| b) : Byte).val >>> 4 = a) ∧
    ((Fin.ofNat (a <<< 4 ||| b) : Byte).val &&& 0x0f = b) := by
  decide!

theorem upper_encode_decoded (p q : Byte) (a b : Nat) (hp : hex.fromHexChar p = some a)
    (hq : hex.fromHexChar q = some b) :
    strings.ToUpper (hex.encodeByte (Fin.ofNat (a <<< 4 ||| b))) =
      [strings.upperByte p, strings.upperByte q] := by
  obtain ⟨ha, hpa⟩ := fromHexChar_some p a hp
  obtain ⟨hb, hqb⟩ := fromHexChar_some q b hq
  obtain ⟨h1, h2⟩ := nibbles_shift_aux a ha b hb
  simp only [strings.ToUpper, hex.encodeByte, List.map_cons, List.map_nil]
  rw [h1, h2, hpa, hqb]

theorem upperByte_upperHex (c : Byte) (hc : isUpperHexChar c) : strings.upperByte c = c := by
  unfold isUpperHexChar at hc
  unfold strings.upperByte
  rw [if_neg (by omega)]

theorem upper_encode_cons (v : Byte) (bs : Bytes) :
    strings.ToUpper (hex.EncodeToString (v :: bs)) =
      strings.ToUpper (hex.encodeByte v) ++ strings.ToUpper (hex.EncodeToString bs) := by
  simp [strings.ToUpper, hex.EncodeToString]

theorem decoded_prefixChars (P t hash : Bytes) (hP5 : P.length = 5)
    (hPc : ∀ c ∈ P, isUpperHexChar c) (h : hex.DecodeString (P ++ t) = .ok hash) :
    (strings.ToUpper (hex.EncodeToString (copyToArray sha1.Size hash).val)).take 5 = P := by
  match P, hP5 with
  | [c0, c1, c2, c3, c4], _ =>
    cases t with
    | nil =>
      exfalso
      obtain ⟨_, _, h1, _, _, hr1, _⟩ := DecodeString_cons_cons _ _ _ _ h
      obtain ⟨_, _, h2, _, _, hr2, _⟩ := DecodeString_cons_cons _ _ _ _ hr1
      exact DecodeString_singleton _ _ hr2
    | cons t0 t' =>
      obtain ⟨a0, a1, h1, hp0, hp1, hr1, rfl⟩ := DecodeString_cons_cons _ _ _ _ h
      obtain ⟨a2, a3, h2, hp2, hp3, hr2, rfl⟩ := DecodeString_cons_cons _ _ _ _ hr1
      obtain ⟨a4, a5, h3, hp4, hp5, _, rfl⟩ := DecodeString_cons_cons _ _ _ _ hr2
      have e0 := upper_encode_decoded c0 c1 a0 a1 hp0 hp1
      have e1 := upper_encode_decoded c2 c3 a2 a3 hp2 hp3
      have e2 := upper_encode_decoded c4 t0 a4 a5 hp4 hp5
      rw [upperByte_upperHex c0 (hPc c0 (by simp)), upperByte_upperHex c1 (hPc c1 (by simp))] at e0
      rw [upperByte_upperHex c2 (hPc c2 (by simp)), upperByte_upperHex c3 (hPc c3 (by simp))] at e1
      rw [upperByte_upperHex c4 (hPc c4 (by simp))] at e2
      have hcopy : (copyToArray sha1.Size
          ((Fin.ofNat (a0 <<< 4 ||| a1) : Byte) :: (Fin.ofNat (a2 <<< 4 ||| a3) : Byte) ::
            (Fin.ofNat (a4 <<< 4 ||| a5) : Byte) :: h3)).val =
          (Fin.ofNat (a0 <<< 4 ||| a1) : Byte) :: (Fin.ofNat (a2 <<< 4 ||| a3) : Byte) ::
            (Fin.ofNat (a4 <<< 4 ||| a5) : Byte) ::
            (h3 ++ List.replicate sha1.Size (0 : Byte)).take 17 := by
        simp [copyToArray, sha1.Size]
      rw [hcopy, upper_encode_cons, upper_encode_cons, upper_encode_cons, e0, e1, e2]
      rfl

theorem lineKey_prefixChars (P line : Bytes) (d : Digest) (hP5 : P.length = 5)
    (hPc : ∀ c ∈ P, isUpperHexChar c) (h : lineKey P line = some d) :
    prefixChars d = P := by
  unfold lineKey at h
  split at h
  · rename_i part0 _ _
    split at h
    · cases h
    · rename_i hash hdec
      rw [scrub_append, scrub_upperHex P hPc] at hdec
      cases h
      exact decoded_prefixChars P _ hash hP5 hPc hdec
  · cases h

theorem prefixKey_eq_iff (d1 d2 : Digest) :
    prefixKey d1 = prefixKey d2 ↔ prefixChars d1 = prefixChars d2 := by
  constructor
  · intro h
    unfold prefixKey at h
    rw [copyToArray_of_length 5 _ (prefixChars_length d1),
      copyToArray_of_length 5 _ (prefixChars_length d2)] at h
    exact congrArg Subtype.val h
  · exact prefixKey_eq_of_chars d1 d2

end hibp

namespace hibp
open sha1 (Digest)

/-! ## What a scan stores -/

theorem scanLoop_cons (P : Bytes) (m0 : Digest → Option Int) (line : Bytes)
    (rest : List Bytes) :
    (∃ p, scanLoop P m0 (line :: rest) = (m0, some p)) ∨
    (∃ key count, lineKey P line = some key ∧
      scanLoop P m0 (line :: rest) = scanLoop P (mapSet m0 key (some count)) rest) := by
  rw [scanLoop]
  unfold lineKey
  rcases strings.Split line 58 with _ | ⟨part0, _ | ⟨part1, _ | ⟨part2, t⟩⟩⟩
  · exact Or.inl ⟨_, rfl⟩
  · exact Or.inl ⟨_, rfl⟩
  · simp only
    cases hdec : hex.DecodeString (scrub (P ++ part0)) with
    | error e => exact Or.inl ⟨_, rfl⟩
    | ok hash =>
      cases hparse : strconv.ParseInt part1 with
      | error e => exact Or.inl ⟨_, rfl⟩
      | ok count => exact Or.inr ⟨_, count, rfl, rfl⟩
  · exact Or.inl ⟨_, rfl⟩

theorem mapSet_isSome (m0 : Digest → Option Int) (key d : Digest) (count : Int) :
    (mapSet m0 key (some count) d).isSome = true ↔ d = key ∨ (m0 d).isSome = true := by
  unfold mapSet
  by_cases h : d = key
  · simp [h]
  · simp [h]

theorem scanLoop_accepted_keys (P : Bytes) (lines : List Bytes) (m0 m : Digest → Option Int)
    (h : scanLoop P m0 lines = (m, none)) (d : Digest) :
    (m d).isSome = true ↔
      ((m0 d).isSome = true ∨ ∃ line ∈ lines, lineKey P line = some d) := by
  induction lines generalizing m0 with
  | nil =>
    rw [scanLoop] at h
    cases h
    simp
  | cons line rest ih =>
    rcases scanLoop_cons P m0 line rest with ⟨p, hp⟩ | ⟨key, count, hk, hstep⟩
    · rw [hp] at h
      cases h
    · rw [hstep] at h
      rw [ih _ h, mapSet_isSome]
      constructor
      · rintro ((rfl | h0) | ⟨l, hl, hd⟩)
        · exact Or.inr ⟨line, List.mem_cons_self _ _, hk⟩
        · exact Or.inl h0
        · exact Or.inr ⟨l, List.mem_cons_of_mem _ hl, hd⟩
      · rintro (h0 | ⟨l, hl, hd⟩)
        · exact Or.inl (Or.inr h0)
        · rcases List.mem_cons.1 hl with rfl | hl'
          · rw [hk] at hd
            exact Or.inl (Or.inl (Option.some.inj hd).symm)
          · exact Or.inr ⟨l, hl', hd⟩

theorem scanLoop_other_keys (P : Bytes) (lines : List Bytes) (m0 : Digest → Option Int)
    (d : Digest) (hd : ∀ line ∈ lines, lineKey P line ≠ some d) :
    (scanLoop P m0 lines).1 d = m0 d := by
  induction lines generalizing m0 with
  | nil => rfl
  | cons line rest ih =>
    rcases scanLoop_cons P m0 line rest with ⟨p, hp⟩ | ⟨key, count, hk, hstep⟩
    · rw [hp]
    · rw [hstep, ih _ (fun l hl => hd l (List.mem_cons_of_mem _ hl))]
      have hne : d ≠ key := by
        intro h
        apply hd line (List.mem_cons_self _ _)
        rw [hk, h]
      simp [mapSet, hne]

theorem scanLoop_outside_prefixChars (sha : Digest) (lines : List Bytes) (m0 : Digest → Option Int)
    (d : Digest) (hd : prefixChars d ≠ prefixChars sha) :
    (scanLoop (prefixChars sha) m0 lines).1 d = m0 d := by
  apply scanLoop_other_keys
  intro line _ hk
  exact hd (lineKey_prefixChars _ line d (prefixChars_length sha) (prefixChars_chars sha) hk)

theorem lineKey_of_suffix (d : Digest) (line part1 : Bytes)
    (hsplit : strings.Split line 58 = [suffixChars d, part1]) :
    lineKey (prefixChars d) line = some d := by
  unfold lineKey
  rw [hsplit]
  simp only
  rw [prefix_append_suffix, scrub_upperHex _ (upperHex_chars d)]
  unfold upperHex
  rw [DecodeString_upper_encode]
  simp only
  rw [copyToArray_of_length sha1.Size d.val d.property]

theorem lineKey_upperHex_field (d : Digest) (line part0 part1 : Bytes)
    (hsplit : strings.Split line 58 = [part0, part1]) (hlen : part0.length = 35)
    (hchars : ∀ c ∈ part0, isUpperHexChar c)
    (hk : lineKey (prefixChars d) line = some d) : part0 = suffixChars d := by
  have hall : ∀ c ∈ prefixChars d ++ part0, isUpperHexChar c := by
    intro c hc
    rcases List.mem_append.1 hc with h | h
    · exact prefixChars_chars d c h
    · exact hchars c h
  obtain ⟨bs, hbl, hbs⟩ := upper_encode_surjective 20 (prefixChars d ++ part0)
    (by rw [List.length_append, prefixChars_length, hlen]) hall
  unfold lineKey at hk
  rw [hsplit] at hk
  simp only at hk
  rw [scrub_upperHex _ hall, ← hbs, DecodeString_upper_encode] at hk
  simp only [Option.some.injEq] at hk
  rw [copyToArray_of_length sha1.Size bs hbl] at hk
  have hup : upperHex d = strings.ToUpper (hex.EncodeToString bs) := by
    rw [← hk]
    rfl
  have hd : upperHex d = prefixChars d ++ part0 := by
    rw [hup, hbs]
  rw [← prefix_append_suffix d] at hd
  exact (List.append_cancel_left hd).symm

/-! ## States reached by successful calls -/

theorem Session.call_cases (s s' : Session) (client : Client) (pwd : Bytes)
    (h : s.call client pwd = some s') :
    (s.checker.seen (prefixKey (sha1.Sum pwd)) = true ∧ s' = s) ∨
    (s.checker.seen (prefixKey (sha1.Sum pwd)) = false ∧ ∃ resp m,
      client (rangeRequest (sha1.Sum pwd)) = .ok resp ∧
      scanLoop (prefixChars (sha1.Sum pwd)) s.checker.pwned (bufio.ScanLines resp.Body) =
        (m, none) ∧
      s' = ⟨⟨mapSet s.checker.seen (prefixKey (sha1.Sum pwd)) true, m⟩,
        mapSet s.fetched (prefixKey (sha1.Sum pwd)) (some resp)⟩) := by
  unfold Session.call at h
  cases hs : s.checker.seen (prefixKey (sha1.Sum pwd)) with
  | true =>
    left
    rw [Pwned_hit _ client pwd hs] at h
    simp only [hs, if_true, Option.some.injEq] at h
    exact ⟨rfl, h.symm⟩
  | false =>
    right
    refine ⟨rfl, ?_⟩
    cases hc : client (rangeRequest (sha1.Sum pwd)) with
    | error e =>
      exfalso
      have : (Pwned s.checker client pwd).outcome = .panicked e := by
        unfold Pwned ensureCached
        simp [hs, hc]
      rw [this] at h
      cases h
    | ok resp =>
      have hrun := ensureCached_miss s.checker client (sha1.Sum pwd) resp hs hc
      rcases hl : scanLoop (prefixChars (sha1.Sum pwd)) s.checker.pwned
        (bufio.ScanLines resp.Body) with ⟨m, _ | p⟩
      · rw [hl] at hrun
        refine ⟨resp, m, rfl, hl, ?_⟩
        have hck : (Pwned s.checker client pwd).checker =
            ⟨mapSet s.checker.seen (prefixKey (sha1.Sum pwd)) true, m⟩ := by
          rw [Pwned_checker, hrun]
        rw [hck] at h
        simp only [hs, hc, Bool.false_eq_true, if_false] at h
        split at h
        · cases h
        · exact (Option.some.inj h).symm
      · exfalso
        rw [hl] at hrun
        have : (Pwned s.checker client pwd).outcome = .panicked p := by
          unfold Pwned
          simp [hrun]
        rw [this] at h
        cases h

/-- The invariant of a session: a prefix is in the prefix set exactly when a response is
recorded for it, and a checksum is a key exactly when a line of the response recorded for
its prefix yields it. -/
theorem Session.run_invariant (calls : List (Client × Bytes)) (s s' : Session)
    (hrun : s.run calls = some s')
    (h1 : ∀ p, s.checker.seen p = true ↔ (s.fetched p).isSome = true)
    (h2 : ∀ d, (s.checker.pwned d).isSome = true ↔
      ∃ resp, s.fetched (prefixKey d) = some resp ∧
        ∃ line ∈ bufio.ScanLines resp.Body, lineKey (prefixChars d) line = some d) :
    (∀ p, s'.checker.seen p = true ↔ (s'.fetched p).isSome = true) ∧
    (∀ d, (s'.checker.pwned d).isSome = true ↔
      ∃ resp, s'.fetched (prefixKey d) = some resp ∧
        ∃ line ∈ bufio.ScanLines resp.Body, lineKey (prefixChars d) line = some d) := by
  induction calls generalizing s with
  | nil =>
    rw [Session.run] at hrun
    cases hrun
    exact ⟨h1, h2⟩
  | cons call rest ih =>
    obtain ⟨client, pwd⟩ := call
    rw [Session.run] at hrun
    cases hc : s.call client pwd with
    | none => rw [hc] at hrun; cases hrun
    | some t =>
      rw [hc] at hrun
      simp only at hrun
      rcases Session.call_cases s t client pwd hc with ⟨_, rfl⟩ | ⟨hs, resp, m, hresp, hl, rfl⟩
      · exact ih t hrun h1 h2
      · apply ih _ hrun
        · intro p
          simp only [mapSet]
          by_cases hp : p = prefixKey (sha1.Sum pwd)
          · simp [hp]
          · simp only [hp, if_false]
            exact h1 p
        · intro d
          simp only
          rw [scanLoop_accepted_keys _ _ _ _ hl d]
          have hnone : s.fetched (prefixKey (sha1.Sum pwd)) = none := by
            cases hf : s.fetched (prefixKey (sha1.Sum pwd)) with
            | none => rfl
            | some r =>
              have := (h1 (prefixKey (sha1.Sum pwd))).2 (by rw [hf]; rfl)
              rw [hs] at this
              cases this
          by_cases hp : prefixKey d = prefixKey (sha1.Sum pwd)
          · have hpc : prefixChars d = prefixChars (sha1.Sum pwd) := (prefixKey_eq_iff _ _).1 hp
            have hold : ¬ (s.checker.pwned d).isSome = true := by
              intro h
              obtain ⟨r, hr, _⟩ := (h2 d).1 h
              rw [hp, hnone] at hr
              cases hr
            simp only [mapSet, hp, if_true, Option.some.injEq, hpc]
            constructor
            · rintro (h | h)
              · exact absurd h hold
              · exact ⟨resp, rfl, h⟩
            · rintro ⟨r, rfl, h⟩
              exact Or.inr h
          · have hpc : prefixChars d ≠ prefixChars (sha1.Sum pwd) :=
              fun h => hp ((prefixKey_eq_iff _ _).2 h)
            simp only [mapSet, hp, if_false]
            rw [← h2 d]
            constructor
            · rintro (h | ⟨l, _, hk⟩)
              · exact h
              · exact absurd (lineKey_prefixChars _ l d (prefixChars_length _)
                  (prefixChars_chars _) hk) hpc
            · exact Or.inl

theorem Session.empty_invariant (calls : List (Client × Bytes)) (s : Session)
    (hrun : Session.run Session.empty calls = some s) :
    (∀ p, s.checker.seen p = true ↔ (s.fetched p).isSome = true) ∧
    (∀ d, (s.checker.pwned d).isSome = true ↔
      ∃ resp, s.fetched (prefixKey d) = some resp ∧
        ∃ line ∈ bufio.ScanLines resp.Body, lineKey (prefixChars d) line = some d) := by
  apply Session.run_invariant calls Session.empty s hrun
  · intro p
    simp [Session.empty, Checker.empty]
  · intro d
    simp [Session.empty, Checker.empty]

theorem Reachable_key_seen (c : Checker) (hc : Reachable c) (d : Digest)
    (hd : (c.pwned d).isSome = true) : c.seen (prefixKey d) = true := by
  obtain ⟨calls, s, hrun, rfl⟩ := hc
  obtain ⟨h1, h2⟩ := Session.empty_invariant calls s hrun
  obtain ⟨resp, hr, _⟩ := (h2 d).1 hd
  exact (h1 _).2 (by rw [hr]; rfl)

end hibp

namespace hibp
open sha1 (Digest)

theorem sha1_empty : sha1.Sum [] =
    ⟨[0xDA, 0x39, 0xA3, 0xEE, 0x5E, 0x6B, 0x4B, 0x0D, 0x32, 0x55, 0xBF, 0xEF, 0x95, 0x60,
      0x18, 0x90, 0xAF, 0xD8, 0x07, 0x09], rfl⟩ := by
  decide!

theorem Session.run_single (client : Client) (pwd : Bytes) (n : Int) (resp : Response)
    (hout : (Pwned Checker.empty client pwd).outcome = .returned n)
    (hresp : client (rangeRequest (sha1.Sum pwd)) = .ok resp) :
    Session.run Session.empty [(client, pwd)] =
      some ⟨(Pwned Checker.empty client pwd).checker,
        mapSet (fun _ => none) (prefixKey (sha1.Sum pwd)) (some resp)⟩ := by
  simp only [Session.run, Session.call, Session.empty, hout, hresp]
  rfl

set_option maxRecDepth 100000 in
theorem Pwned_shortLine_password :
    (Pwned Checker.empty shortLineClient (ofString "password")).outcome = .returned 0 ∧
    (Pwned Checker.empty shortLineClient (ofString "password")).checker.pwned shortLineKey =
      some 5 ∧
    (Pwned Checker.empty shortLineClient (ofString "password")).checker.seen
      (prefixKey shortLineKey) = true ∧
    prefixKey shortLineKey = prefixKey (sha1.Sum (ofString "password")) ∧
    lineKey (prefixChars (sha1.Sum (ofString "password"))) (ofString "ABC:5") =
      some shortLineKey := by
  unfold Pwned
  rw [sha1_password]
  decide!

/-- C12, as the code behaves: in every state reached from the empty checker by successful
calls, a checksum is a key of the hash-to-count map if and only if its prefix is in the
prefix set and the response fetched for that prefix has a line that yields it, that is,
the checksum is the first 20 bytes, zero-padded, of the hex decoding of the prefix
followed by the scrubbed first field of the line. A line whose first field is the
remaining 35 upper-case hex characters of the checksum yields it, so such a checksum is a
key; and a line whose first field is 35 upper-case hex characters yields the checksum
only if these are its remaining 35 characters. -/
theorem reachable_keys_from_fetched_lines (calls : List (Client × Bytes)) (s : Session)
    (hrun : Session.run Session.empty calls = some s) (d : Digest) :
    ((s.checker.pwned d).isSome = true ↔
      (s.checker.seen (prefixKey d) = true ∧
        ∃ resp, s.fetched (prefixKey d) = some resp ∧
          ∃ line ∈ bufio.ScanLines resp.Body, lineKey ((upperHex d).take 5) line = some d)) ∧
    (s.checker.seen (prefixKey d) = true →
      (∀ resp, s.fetched (prefixKey d) = some resp →
        (∃ line ∈ bufio.ScanLines resp.Body, ∃ part1,
          strings.Split line 58 = [(upperHex d).drop 5, part1]) →
        (s.checker.pwned d).isSome = true)) ∧
    (∀ line part0 part1, strings.Split line 58 = [part0, part1] → part0.length = 35 →
      (∀ c ∈ part0, isUpperHexChar c) →
      (lineKey ((upperHex d).take 5) line = some d ↔ part0 = (upperHex d).drop 5)) := by
  obtain ⟨h1, h2⟩ := Session.empty_invariant calls s hrun
  refine ⟨?_, ?_, ?_⟩
  rotate_left 2
  · intro line part0 part1 hsplit hlen hchars
    constructor
    · exact lineKey_upperHex_field d line part0 part1 hsplit hlen hchars
    · intro h
      rw [h] at hsplit
      exact lineKey_of_suffix d line part1 hsplit
  · rw [h2 d]
    constructor
    · rintro ⟨resp, hr, hline⟩
      exact ⟨(h1 _).2 (by rw [hr]; rfl), resp, hr, hline⟩
    · rintro ⟨_, resp, hr, hline⟩
      exact ⟨resp, hr, hline⟩
  · intro _ resp hr ⟨line, hl, part1, hsplit⟩
    exact (h2 d).2 ⟨resp, hr, line, hl, lineKey_of_suffix d line part1 hsplit⟩

set_option maxRecDepth 100000 in
theorem shortLineSession_key :
    shortLineSession.checker.pwned shortLineKey = some 5 ∧
    shortLineSession.checker.seen (prefixKey shortLineKey) = true :=
  ⟨Pwned_shortLine_password.2.1, Pwned_shortLine_password.2.2.1⟩

theorem shortLineSession_run :
    Session.run Session.empty [(shortLineClient, ofString "password")] =
      some shortLineSession :=
  Session.run_single shortLineClient (ofString "password") 0 shortLineResponse
    Pwned_shortLine_password.1 rfl

theorem reachable_keys_from_fetched_lines_witness :
    (shortLineSession.checker.pwned shortLineKey).isSome = true ↔
      (shortLineSession.checker.seen (prefixKey shortLineKey) = true ∧
        ∃ resp, shortLineSession.fetched (prefixKey shortLineKey) = some resp ∧
          ∃ line ∈ bufio.ScanLines resp.Body,
            lineKey ((upperHex shortLineKey).take 5) line = some shortLineKey) :=
  (reachable_keys_from_fetched_lines [(shortLineClient, ofString "password")]
    shortLineSession shortLineSession_run shortLineKey).1

set_option maxRecDepth 100000 in
/-- C12, counterexample: the empty checker after the successful call `Pwned("password")`
answered with the one-line body `ABC:5`. The checksum `5BAA6ABC` followed by zero bytes is
a key of the map (with count 5) and its prefix is in the prefix set, but the response
fetched for the prefix has no line whose first field is the remaining 35 hex characters
of that checksum. -/
theorem reachable_key_without_suffix_line :
    Session.run Session.empty [(shortLineClient, ofString "password")] =
      some shortLineSession ∧
    shortLineSession.checker.pwned shortLineKey = some 5 ∧
    shortLineSession.checker.seen (prefixKey shortLineKey) = true ∧
    shortLineSession.fetched (prefixKey shortLineKey) = some shortLineResponse ∧
    ¬ ∃ line ∈ bufio.ScanLines shortLineResponse.Body,
      (strings.Split line 58).headD [] = (upperHex shortLineKey).drop 5 :=
  ⟨shortLineSession_run, shortLineSession_key.1, shortLineSession_key.2,
    by
      rw [Pwned_shortLine_password.2.2.2.1]
      simp [shortLineSession, mapSet],
    by decide!⟩

/-- C13: the cache only grows. In every state reached from the empty checker by successful
calls, a further call of `Pwned` (successful or not) keeps every prefix of the prefix set
and keeps every key of the hash-to-count map with its count. -/
theorem Pwned_cache_grows (c : Checker) (hc : Reachable c) (client : Client) (pwd : Bytes) :
    (∀ p, c.seen p = true → (Pwned c client pwd).checker.seen p = true) ∧
    (∀ d v, c.pwned d = some v → (Pwned c client pwd).checker.pwned d = some v) := by
  by_cases hs : c.seen (prefixKey (sha1.Sum pwd)) = true
  · rw [Pwned_hit c client pwd hs]
    exact ⟨fun _ h => h, fun _ _ h => h⟩
  · have hsf : c.seen (prefixKey (sha1.Sum pwd)) = false := by simpa using hs
    rw [Pwned_checker]
    cases hcl : client (rangeRequest (sha1.Sum pwd)) with
    | error e =>
      have : ensureCached c client (sha1.Sum pwd) = ⟨c, [rangeRequest (sha1.Sum pwd)],
          .panicked e⟩ := by
        unfold ensureCached
        simp [hsf, hcl]
      rw [this]
      exact ⟨fun _ h => h, fun _ _ h => h⟩
    | ok resp =>
      rw [ensureCached_miss c client _ resp hsf hcl]
      have hkeep : ∀ d v, c.pwned d = some v →
          (scanLoop (prefixChars (sha1.Sum pwd)) c.pwned (bufio.ScanLines resp.Body)).1 d =
            some v := by
        intro d v hd
        rw [scanLoop_outside_prefixChars, hd]
        intro hp
        have hseen := Reachable_key_seen c hc d (by rw [hd]; rfl)
        rw [(prefixKey_eq_iff _ _).2 hp, hsf] at hseen
        cases hseen
      rcases hl : scanLoop (prefixChars (sha1.Sum pwd)) c.pwned
        (bufio.ScanLines resp.Body) with ⟨m, _ | p⟩
      · rw [hl] at hkeep
        refine ⟨?_, hkeep⟩
        intro p hp
        simp only [mapSet]
        split
        · rfl
        · exact hp
      · rw [hl] at hkeep
        exact ⟨fun _ h => h, hkeep⟩

set_option maxRecDepth 100000 in
theorem Pwned_cache_grows_witness :
    (Pwned shortLineSession.checker
        (fun _ => .ok ⟨200, ofString "ABC:9\nDEF:1", none⟩) []).outcome = .returned 0 ∧
    (Pwned shortLineSession.checker
        (fun _ => .ok ⟨200, ofString "ABC:9\nDEF:1", none⟩) []).requests =
      [⟨"GET", ofString "https://api.pwnedpasswords.com/range/DA39A"⟩] ∧
    (Pwned shortLineSession.checker
        (fun _ => .ok ⟨200, ofString "ABC:9\nDEF:1", none⟩) []).checker.pwned shortLineKey =
      some 5 :=
  ⟨by unfold Pwned shortLineSession; rw [sha1_password, sha1_empty]; decide!,
   by unfold Pwned shortLineSession; rw [sha1_password, sha1_empty]; decide!,
   (Pwned_cache_grows shortLineSession.checker
      ⟨[(shortLineClient, ofString "password")], shortLineSession, shortLineSession_run, rfl⟩
      (fun _ => .ok ⟨200, ofString "ABC:9\nDEF:1", none⟩) []).2 shortLineKey 5
      shortLineSession_key.1⟩

/-- C20: every key a fetch stores lies under the fetched prefix. For a checksum with unseen
prefix and any response, each key the loop computes from a line (also from a line whose
scrubbed field is shorter or longer than 35 characters, where the key is zero-padded or
truncated) has the fetched prefix as the first five characters of its upper-case hex form,
and every entry of the map that the call changes lies under that prefix. Hence in every
state reached from the empty checker by successful calls, the prefix of every key is in
the prefix set. -/
theorem stored_keys_under_prefixChars :
    (∀ (c : Checker) (client : Client) (sha : Digest) (resp : Response),
      c.seen (prefixKey sha) = false → client (rangeRequest sha) = .ok resp →
      (∀ line ∈ bufio.ScanLines resp.Body, ∀ d, lineKey ((upperHex sha).take 5) line = some d →
        (upperHex d).take 5 = (upperHex sha).take 5) ∧
      (∀ d, (ensureCached c client sha).checker.pwned d ≠ c.pwned d →
        (upperHex d).take 5 = (upperHex sha).take 5)) ∧
    (∀ c, Reachable c → ∀ d, (c.pwned d).isSome = true → c.seen (prefixKey d) = true) := by
  refine ⟨?_, Reachable_key_seen⟩
  intro c client sha resp hs hcl
  refine ⟨?_, ?_⟩
  · intro line _ d hk
    exact lineKey_prefixChars _ line d (prefixChars_length sha) (prefixChars_chars sha) hk
  · intro d hne
    by_contra hp
    apply hne
    have hsame := scanLoop_outside_prefixChars sha (bufio.ScanLines resp.Body) c.pwned d hp
    rw [ensureCached_miss c client sha resp hs hcl]
    rcases hl : scanLoop (prefixChars sha) c.pwned (bufio.ScanLines resp.Body) with ⟨m, _ | p⟩ <;>
      · rw [hl] at hsame
        exact hsame

set_option maxRecDepth 100000 in
theorem stored_keys_under_prefixChars_witness :
    (upperHex shortLineKey).take 5 = (upperHex (sha1.Sum (ofString "password"))).take 5 ∧
    shortLineSession.checker.seen (prefixKey shortLineKey) = true :=
  ⟨((stored_keys_under_prefixChars.1 Checker.empty shortLineClient
      (sha1.Sum (ofString "password")) shortLineResponse rfl rfl).1
      (ofString "ABC:5") (by decide!) shortLineKey Pwned_shortLine_password.2.2.2.2),
   stored_keys_under_prefixChars.2 _
      ⟨[(shortLineClient, ofString "password")], shortLineSession, shortLineSession_run, rfl⟩
      shortLineKey (by rw [shortLineSession_key.1]; rfl)⟩

end hibp

namespace bufio

/-! ## The scanner and the lines of a body -/

theorem linesFrom_head_length (data : Bytes) : ∀ (cur l : Bytes),
    (linesFrom cur data).head? = some l → cur.length ≤ l.length := by
  induction data with
  | nil =>
    intro cur l h
    unfold linesFrom at h
    by_cases hc : cur = []
    · rw [if_pos hc] at h; cases h
    · rw [if_neg hc] at h
      simp only [List.head?_cons, Option.some.injEq] at h
      rw [h]
  | cons c rest ih =>
    intro cur l h
    unfold linesFrom at h
    by_cases hc : c = 10
    · rw [if_pos hc] at h
      simp only [List.head?_cons, Option.some.injEq] at h
      rw [h]
    · rw [if_neg hc] at h
      have := ih (cur ++ [c]) l h
      simp only [List.length_append, List.length_singleton] at this
      omega

theorem takeWhile_short_of_head (cur : Bytes) (ls : List Bytes)
    (hcur : MaxScanTokenSize ≤ cur.length)
    (hhead : ∀ l, ls.head? = some l → cur.length ≤ l.length) :
    ls.takeWhile (fun l => decide (l.length < MaxScanTokenSize)) = [] := by
  cases ls with
  | nil => rfl
  | cons l t =>
    have h := hhead l rfl
    rw [List.takeWhile_cons]
    have hl : decide (l.length < MaxScanTokenSize) = false := by
      simp only [decide_eq_false_iff_not, not_lt]
      omega
    rw [hl]
    rfl

theorem any_long_of_head (cur data : Bytes) (hne : linesFrom cur data ≠ [])
    (hcur : MaxScanTokenSize ≤ cur.length) :
    (linesFrom cur data).any (fun l => decide (MaxScanTokenSize ≤ l.length)) = true := by
  cases hl : linesFrom cur data with
  | nil => exact absurd hl hne
  | cons l t =>
    have h := linesFrom_head_length data cur l (by rw [hl]; rfl)
    simp only [List.any_cons, Bool.or_eq_true, decide_eq_true_eq]
    exact Or.inl (by omega)

theorem linesFrom_cons_ne_nil (c : Byte) (rest : Bytes) : ∀ cur, linesFrom cur (c :: rest) ≠ [] := by
  induction rest generalizing c with
  | nil =>
    intro cur
    unfold linesFrom
    by_cases hc : c = 10
    · rw [if_pos hc]; exact List.cons_ne_nil _ _
    · rw [if_neg hc]
      unfold linesFrom
      rw [if_neg (by simp)]
      exact List.cons_ne_nil _ _
  | cons d rest ih =>
    intro cur
    unfold linesFrom
    by_cases hc : c = 10
    · rw [if_pos hc]; exact List.cons_ne_nil _ _
    · rw [if_neg hc]
      exact ih d _

/-- The tokens handed out are the lines before the first line of `MaxScanTokenSize` bytes
or more, each without its trailing carriage return. -/
theorem scanFrom_eq_lines (data : Bytes) : ∀ cur : Bytes,
    scanFrom cur data =
      ((linesFrom cur data).takeWhile (fun l => decide (l.length < MaxScanTokenSize))).map
        dropCR := by
  induction data with
  | nil =>
    intro cur
    unfold scanFrom linesFrom
    by_cases hc : cur = []
    · rw [if_pos hc, if_pos hc]; rfl
    · rw [if_neg hc, if_neg hc]
      by_cases hl : MaxScanTokenSize ≤ cur.length
      · rw [if_pos hl, List.takeWhile_cons]
        have : decide (cur.length < MaxScanTokenSize) = false := by
          simp only [decide_eq_false_iff_not, not_lt]; exact hl
        rw [this]; rfl
      · rw [if_neg hl, List.takeWhile_cons]
        have : decide (cur.length < MaxScanTokenSize) = true := by
          simp only [decide_eq_true_eq]; omega
        rw [this]; rfl
  | cons c rest ih =>
    intro cur
    by_cases hl : MaxScanTokenSize ≤ cur.length
    · rw [takeWhile_short_of_head cur _ hl (linesFrom_head_length (c :: rest) cur)]
      unfold scanFrom
      rw [if_pos hl]; rfl
    · unfold scanFrom linesFrom
      rw [if_neg hl]
      by_cases hc : c = 10
      · rw [if_pos hc, if_pos hc, List.takeWhile_cons]
        have : decide (cur.length < MaxScanTokenSize) = true := by
          simp only [decide_eq_true_eq]; omega
        rw [this, ih []]; rfl
      · rw [if_neg hc, if_neg hc, ih (cur ++ [c])]

/-- The scan ends with `ErrTooLong` exactly when some line has `MaxScanTokenSize` bytes or
more. -/
theorem tooLongFrom_eq_any (data : Bytes) : ∀ cur : Bytes,
    tooLongFrom cur data =
      (linesFrom cur data).any (fun l => decide (MaxScanTokenSize ≤ l.length)) := by
  induction data with
  | nil =>
    intro cur
    unfold tooLongFrom linesFrom
    by_cases hc : cur = []
    · rw [if_pos hc, hc]; rfl
    · rw [if_neg hc]
      simp only [List.any_cons, List.any_nil, Bool.or_false]
  | cons c rest ih =>
    intro cur
    by_cases hl : MaxScanTokenSize ≤ cur.length
    · rw [any_long_of_head cur (c :: rest) (linesFrom_cons_ne_nil c rest cur) hl]
      unfold tooLongFrom
      rw [if_pos hl]
    · unfold tooLongFrom linesFrom
      rw [if_neg hl]
      by_cases hc : c = 10
      · rw [if_pos hc, if_pos hc, List.any_cons, ih []]
        have : decide (MaxScanTokenSize ≤ cur.length) = false := by
          simp only [decide_eq_false_iff_not]; exact hl
        rw [this, Bool.false_or]
      · rw [if_neg hc, if_neg hc, ih (cur ++ [c])]

theorem ScanLines_eq_lines (data : Bytes) :
    ScanLines data =
      ((lines data).takeWhile (fun l => decide (l.length < MaxScanTokenSize))).map dropCR :=
  scanFrom_eq_lines data []

theorem TooLong_eq_any (data : Bytes) :
    TooLong data = (lines data).any (fun l => decide (MaxScanTokenSize ≤ l.length)) :=
  tooLongFrom_eq_any data []

theorem takeWhile_eq_self {α : Type} (p : α → Bool) (l : List α) (h : ∀ a ∈ l, p a = true) :
    l.takeWhile p = l := by
  induction l with
  | nil => rfl
  | cons a t ih =>
    rw [List.takeWhile_cons, h a (List.mem_cons_self _ _),
      ih (fun b hb => h b (List.mem_cons_of_mem _ hb))]
    rfl

/-- When every line is shorter than `MaxScanTokenSize`, every line is handed out and the
scan does not end with `ErrTooLong`. -/
theorem ScanLines_of_short (data : Bytes)
    (h : ∀ l ∈ lines data, l.length < MaxScanTokenSize) :
    ScanLines data = (lines data).map dropCR ∧ TooLong data = false := by
  refine ⟨?_, ?_⟩
  · rw [ScanLines_eq_lines, takeWhile_eq_self]
    intro l hl
    simp only [decide_eq_true_eq]
    exact h l hl
  · rw [TooLong_eq_any]
    rw [Bool.eq_false_iff]
    intro hany
    rw [List.any_eq_true] at hany
    obtain ⟨l, hl, hlong⟩ := hany
    simp only [decide_eq_true_eq] at hlong
    have := h l hl
    omega

theorem linesFrom_no_newline (data : Bytes) (h : ∀ c ∈ data, c ≠ 10) : ∀ cur : Bytes,
    linesFrom cur data = if cur ++ data = [] then [] else [cur ++ data] := by
  induction data with
  | nil =>
    intro cur
    unfold linesFrom
    simp only [List.append_nil]
  | cons c rest ih =>
    intro cur
    unfold linesFrom
    rw [if_neg (h c (List.mem_cons_self _ _)),
      ih (fun d hd => h d (List.mem_cons_of_mem _ hd)) (cur ++ [c])]
    simp only [List.append_assoc, List.singleton_append]

theorem lines_replicate (b : Byte) (hb : b ≠ 10) (n : Nat) :
    lines (List.replicate (n + 1) b) = [List.replicate (n + 1) b] := by
  unfold lines
  rw [linesFrom_no_newline _ (fun c hc => by rw [List.eq_of_mem_replicate hc]; exact hb)]
  rw [if_neg (by simp [List.replicate_succ])]
  rfl

/-- A body that is one unterminated line of `MaxScanTokenSize` bytes or more: no token
is handed out and the scan ends with `ErrTooLong`. -/
theorem ScanLines_replicate_long (b : Byte) (hb : b ≠ 10) (n : Nat)
    (hn : MaxScanTokenSize ≤ n + 1) :
    ScanLines (List.replicate (n + 1) b) = [] ∧ TooLong (List.replicate (n + 1) b) = true := by
  refine ⟨?_, ?_⟩
  · rw [ScanLines_eq_lines, lines_replicate b hb n, List.takeWhile_cons]
    have : decide ((List.replicate (n + 1) b).length < MaxScanTokenSize) = false := by
      simp only [List.length_replicate, decide_eq_false_iff_not, not_lt]; exact hn
    rw [this]; rfl
  · rw [TooLong_eq_any, lines_replicate b hb n]
    simp only [List.any_cons, List.any_nil, Bool.or_false, List.length_replicate,
      decide_eq_true_eq]
    exact hn

end bufio

namespace hibp
open sha1 (Digest)

/-! ## Failures: status code, malformed line, over-long line -/

/-- C8, as the code behaves: the status code is not inspected. For a checksum whose prefix
is not yet seen, a response with a status other than 200 is handled by `ensureCached`,
and so by `Pwned`, exactly like the response with status 200 and the same body and reader
error. With an empty body and no scanner error `ensureCached` returns nil, marks the
prefix as seen and leaves the hash-to-count map as it was, and `Pwned` returns the count
which that map holds for the checksum: 0 when it holds none, as in every state reached
from the empty checker by successful calls. -/
theorem ensureCached_status_not_inspected (c : Checker) (client : Client) (sha : Digest)
    (resp : Response) (hunseen : c.seen (prefixKey sha) = false)
    (hresp : client (rangeRequest sha) = .ok resp) (hstatus : resp.StatusCode ≠ 200) :
    ensureCached c client sha =
      ensureCached c (fun _ => .ok { resp with StatusCode := 200 }) sha ∧
    (∀ pwd, sha1.Sum pwd = sha →
      Pwned c client pwd = Pwned c (fun _ => .ok { resp with StatusCode := 200 }) pwd) ∧
    (resp.Body = [] → resp.ScanErr = none →
      (ensureCached c client sha).outcome = .returned none ∧
      (ensureCached c client sha).checker.seen (prefixKey sha) = true ∧
      (ensureCached c client sha).checker.pwned = c.pwned ∧
      (∀ pwd, sha1.Sum pwd = sha →
        (Pwned c client pwd).outcome = .returned (c.count sha) ∧
        (c.pwned sha = none → (Pwned c client pwd).outcome = .returned 0) ∧
        (Reachable c → (Pwned c client pwd).outcome = .returned 0))) := by
  have _ := hstatus
  have hsame : ensureCached c client sha =
      ensureCached c (fun _ => .ok { resp with StatusCode := 200 }) sha := by
    rw [ensureCached_miss c client sha resp hunseen hresp,
      ensureCached_miss c _ sha { resp with StatusCode := 200 } hunseen rfl]
    rfl
  refine ⟨hsame, ?_, ?_⟩
  · intro pwd hpwd
    unfold Pwned
    dsimp only
    rw [hpwd, hsame]
  · intro hb he
    have hrun : ensureCached c client sha =
        ⟨{ seen := mapSet c.seen (prefixKey sha) true, pwned := c.pwned }, [rangeRequest sha],
          .returned none⟩ := by
      rw [ensureCached_miss c client sha resp hunseen hresp, hb, he]
      rfl
    have hcount : ∀ pwd, sha1.Sum pwd = sha →
        (Pwned c client pwd).outcome = .returned (c.count sha) := by
      intro pwd hpwd
      unfold Pwned
      dsimp only
      rw [hpwd, hrun]
      rfl
    have hzero : c.pwned sha = none → c.count sha = 0 := by
      intro hnone
      unfold Checker.count
      rw [hnone]
      rfl
    refine ⟨by rw [hrun], by rw [hrun]; simp [mapSet], by rw [hrun], ?_⟩
    intro pwd hpwd
    refine ⟨hcount pwd hpwd, ?_, ?_⟩
    · intro hnone
      rw [hcount pwd hpwd, hzero hnone]
    · intro hreach
      have hnone : c.pwned sha = none := by
        cases hp : c.pwned sha with
        | none => rfl
        | some n =>
          have hseen := Reachable_key_seen c hreach sha (by rw [hp]; rfl)
          rw [hunseen] at hseen
          cases hseen
      rw [hcount pwd hpwd, hzero hnone]

theorem ensureCached_status_not_inspected_witness :
    (ensureCached Checker.empty (fun _ => .ok ⟨503, [], none⟩)
        (sha1.Sum (ofString "password"))).outcome = .returned none ∧
    (Pwned Checker.empty (fun _ => .ok ⟨503, [], none⟩) (ofString "password")).outcome =
      .returned 0 :=
  ⟨((ensureCached_status_not_inspected Checker.empty (fun _ => .ok ⟨503, [], none⟩)
      (sha1.Sum (ofString "password")) ⟨503, [], none⟩ rfl rfl (by decide)).2.2 rfl rfl).1,
   ((((ensureCached_status_not_inspected Checker.empty (fun _ => .ok ⟨503, [], none⟩)
      (sha1.Sum (ofString "password")) ⟨503, [], none⟩ rfl rfl (by decide)).2.2 rfl
        rfl).2.2.2 (ofString "password") rfl).2.1 rfl)⟩

/-- C8, counterexample: the empty checker, the checksum of `password` and a response with
status 404 and an empty body. The prefix is unseen before the call; `ensureCached`
reports no failure and marks the prefix as seen. -/
theorem ensureCached_status_404_accepted :
    Checker.empty.seen (prefixKey (sha1.Sum (ofString "password"))) = false ∧
    (404 : Nat) ≠ 200 ∧
    (ensureCached Checker.empty (fun _ => .ok ⟨404, [], none⟩)
        (sha1.Sum (ofString "password"))).outcome = .returned none ∧
    (ensureCached Checker.empty (fun _ => .ok ⟨404, [], none⟩)
        (sha1.Sum (ofString "password"))).checker.seen
          (prefixKey (sha1.Sum (ofString "password"))) = true ∧
    (Pwned Checker.empty (fun _ => .ok ⟨404, [], none⟩) (ofString "password")).outcome =
      .returned 0 := by
  unfold Pwned
  rw [sha1_password]
  decide!

/-- A malformed line that the scanner hands out aborts the fetch. For a checksum whose
prefix is not yet seen and a response one of whose scanned lines is malformed (it does
not split on `:` into exactly two fields, or prefix plus scrubbed first field is not
valid hex, or the second field is not a base-10 64-bit integer), `ensureCached` panics,
so that `Pwned` returns no count; the prefix set is unchanged, and a later `ensureCached`
for that prefix issues the request again. -/
theorem ensureCached_malformed_line_aborts (c : Checker) (client : Client) (sha : Digest)
    (resp : Response) (hunseen : c.seen (prefixKey sha) = false)
    (hresp : client (rangeRequest sha) = .ok resp)
    (hbad : ∃ line ∈ bufio.ScanLines resp.Body, Malformed (prefixChars sha) line) :
    (∃ p, (ensureCached c client sha).outcome = .panicked p) ∧
    (ensureCached c client sha).checker.seen = c.seen ∧
    (∀ pwd, sha1.Sum pwd = sha → ∃ p, (Pwned c client pwd).outcome = .panicked p) ∧
    (∀ (client2 : Client) (sha2 : Digest), prefixChars sha2 = prefixChars sha →
      (ensureCached (ensureCached c client sha).checker client2 sha2).requests =
        [rangeRequest sha]) := by
  obtain ⟨p, hp⟩ := scanLoop_malformed (prefixChars sha) _ hbad c.pwned
  have hrun : ensureCached c client sha =
      ⟨{ c with pwned := (scanLoop (prefixChars sha) c.pwned (bufio.ScanLines resp.Body)).1 },
        [rangeRequest sha], .panicked p⟩ := by
    rw [ensureCached_miss c client sha resp hunseen hresp]
    rcases hs : scanLoop (prefixChars sha) c.pwned (bufio.ScanLines resp.Body) with ⟨m, o⟩
    rw [hs] at hp
    simp only at hp
    subst hp
    rfl
  refine ⟨⟨p, by rw [hrun]⟩, by rw [hrun], ?_, ?_⟩
  · intro pwd hpwd
    refine ⟨p, ?_⟩
    unfold Pwned
    simp only [hpwd, hrun]
  · intro client2 sha2 h2
    have hk : prefixKey sha2 = prefixKey sha := prefixKey_eq_of_chars _ _ h2
    have hr : rangeRequest sha2 = rangeRequest sha := by unfold rangeRequest; rw [h2]
    rw [ensureCached_requests, hrun, hk, hr]
    simp [hunseen]

theorem ensureCached_malformed_line_aborts_example :
    ∃ p, (ensureCached Checker.empty
      (fun _ => .ok ⟨200, ofString "0018A45C4D1DEF81644B54AB7F969B88D65:1\n003D68EB:x", none⟩)
      (sha1.Sum (ofString "password"))).outcome = .panicked p :=
  (ensureCached_malformed_line_aborts Checker.empty
    (fun _ => .ok ⟨200, ofString "0018A45C4D1DEF81644B54AB7F969B88D65:1\n003D68EB:x", none⟩)
    (sha1.Sum (ofString "password"))
    ⟨200, ofString "0018A45C4D1DEF81644B54AB7F969B88D65:1\n003D68EB:x", none⟩ rfl rfl
    ⟨ofString "003D68EB:x", by decide!, Or.inr (Or.inr ⟨.ErrSyntax, rfl⟩)⟩).1

/-- In a body all of whose lines are shorter than `MaxScanTokenSize`, every line reaches
the loop: a malformed line makes `ensureCached` panic and leaves the prefix set as it
was. -/
theorem ensureCached_malformed_short_line_aborts (c : Checker) (client : Client)
    (sha : Digest) (resp : Response) (hunseen : c.seen (prefixKey sha) = false)
    (hresp : client (rangeRequest sha) = .ok resp)
    (hshort : ∀ l ∈ bufio.lines resp.Body, l.length < bufio.MaxScanTokenSize)
    (hbad : ∃ l ∈ bufio.lines resp.Body, Malformed (prefixChars sha) (bufio.dropCR l)) :
    (∃ p, (ensureCached c client sha).outcome = .panicked p) ∧
    (ensureCached c client sha).checker.seen = c.seen := by
  obtain ⟨l, hl, hm⟩ := hbad
  have htok : ∃ line ∈ bufio.ScanLines resp.Body, Malformed (prefixChars sha) line := by
    rw [(bufio.ScanLines_of_short resp.Body hshort).1]
    exact ⟨bufio.dropCR l, List.mem_map.2 ⟨l, hl, rfl⟩, hm⟩
  have h := ensureCached_malformed_line_aborts c client sha resp hunseen hresp htok
  exact ⟨h.1, h.2.1⟩

/-- Whatever its length, a malformed line makes the call fail: `Pwned` panics, with the
panic of the loop or with the error that `ensureCached` returns. -/
theorem Pwned_malformed_line_fails (c : Checker) (client : Client) (pwd : Bytes)
    (resp : Response) (hunseen : c.seen (prefixKey (sha1.Sum pwd)) = false)
    (hresp : client (rangeRequest (sha1.Sum pwd)) = .ok resp)
    (hbad : ∃ l ∈ bufio.lines resp.Body,
      Malformed (prefixChars (sha1.Sum pwd)) (bufio.dropCR l)) :
    ∃ p, (Pwned c client pwd).outcome = .panicked p := by
  by_cases hlong : bufio.TooLong resp.Body = true
  · unfold Pwned
    dsimp only
    rw [ensureCached_miss c client (sha1.Sum pwd) resp hunseen hresp]
    rcases hs : scanLoop (prefixChars (sha1.Sum pwd)) c.pwned (bufio.ScanLines resp.Body)
      with ⟨m, _ | p⟩
    · refine ⟨ErrTooLong, ?_⟩
      have he : resp.ScanErr = some ErrTooLong := by
        unfold Response.ScanErr
        rw [if_pos hlong]
      simp only [he]
    · exact ⟨p, rfl⟩
  · have hshort : ∀ l ∈ bufio.lines resp.Body, l.length < bufio.MaxScanTokenSize := by
      intro l hl
      by_contra hge
      apply hlong
      rw [bufio.TooLong_eq_any, List.any_eq_true]
      exact ⟨l, hl, by simp only [decide_eq_true_eq]; omega⟩
    obtain ⟨l, hl, hm⟩ := hbad
    have htok : ∃ line ∈ bufio.ScanLines resp.Body,
        Malformed (prefixChars (sha1.Sum pwd)) line := by
      rw [(bufio.ScanLines_of_short resp.Body hshort).1]
      exact ⟨bufio.dropCR l, List.mem_map.2 ⟨l, hl, rfl⟩, hm⟩
    exact (ensureCached_malformed_line_aborts c client (sha1.Sum pwd) resp hunseen hresp
      htok).2.2.1 pwd rfl

theorem Pwned_of_returned_error (c : Checker) (client : Client) (pwd : Bytes) (e : GoError)
    (h : (ensureCached c client (sha1.Sum pwd)).outcome = .returned (some e)) :
    (Pwned c client pwd).outcome = .panicked e := by
  unfold Pwned
  simp only [h]

theorem longLineBody_scan :
    bufio.ScanLines longLineBody = [] ∧ bufio.TooLong longLineBody = true :=
  bufio.ScanLines_replicate_long 65 (by decide) 65536 (by decide)

theorem longLineBody_lines : bufio.lines longLineBody = [longLineBody] :=
  bufio.lines_replicate 65 (by decide) 65536

theorem longLineBody_split : strings.Split longLineBody 58 = [longLineBody] :=
  Split_no_sep 58 longLineBody
    (fun hc => by
      have h : (58 : Byte) = 65 := List.eq_of_mem_replicate hc
      exact absurd h (by decide))

theorem ensureCached_longLine (c : Checker) (sha : Digest)
    (hunseen : c.seen (prefixKey sha) = false) :
    ensureCached c (fun _ => .ok longLineResponse) sha =
      ⟨{ seen := mapSet c.seen (prefixKey sha) true, pwned := c.pwned }, [rangeRequest sha],
        .returned (some ErrTooLong)⟩ := by
  have he : longLineResponse.ScanErr = some ErrTooLong := by
    unfold Response.ScanErr
    rw [show longLineResponse.Body = longLineBody from rfl, longLineBody_scan.2]
    rfl
  rw [ensureCached_miss c _ sha longLineResponse hunseen rfl,
    show longLineResponse.Body = longLineBody from rfl, longLineBody_scan.1, he]
  rfl

/-- C10, the code at a failing input: the empty checker, the checksum of `password`, and a
body that is one line of 65537 letters `A`. The line has no colon, so it does not split
into two fields. The scanner does not hand it out: it stops with `bufio.ErrTooLong`,
`ensureCached` returns that error and `Pwned` panics with it, so the call fails; yet the
prefix is in the prefix set afterwards, and the next call for this prefix issues no
request. -/
theorem ensureCached_long_line_marks_seen :
    longLineBody.length = 65537 ∧
    bufio.lines longLineBody = [longLineBody] ∧
    strings.Split longLineBody 58 = [longLineBody] ∧
    Malformed (prefixChars (sha1.Sum (ofString "password"))) longLineBody ∧
    Checker.empty.seen (prefixKey (sha1.Sum (ofString "password"))) = false ∧
    (ensureCached Checker.empty (fun _ => .ok longLineResponse)
        (sha1.Sum (ofString "password"))).outcome = .returned (some ErrTooLong) ∧
    (Pwned Checker.empty (fun _ => .ok longLineResponse) (ofString "password")).outcome =
      .panicked ErrTooLong ∧
    (ensureCached Checker.empty (fun _ => .ok longLineResponse)
        (sha1.Sum (ofString "password"))).checker.seen
          (prefixKey (sha1.Sum (ofString "password"))) = true ∧
    (ensureCached
        (ensureCached Checker.empty (fun _ => .ok longLineResponse)
          (sha1.Sum (ofString "password"))).checker
        (fun _ => .error (.transport "down"))
        (sha1.Sum (ofString "password"))).requests = [] := by
  have hrun := ensureCached_longLine Checker.empty (sha1.Sum (ofString "password")) rfl
  refine ⟨List.length_replicate _ _, longLineBody_lines, longLineBody_split, ?_, rfl, ?_, ?_,
    ?_, ?_⟩
  · refine Or.inl ?_
    rw [longLineBody_split]
    decide
  · rw [hrun]
  · exact Pwned_of_returned_error _ _ _ _ (by rw [hrun])
  · rw [hrun]
    simp [mapSet]
  · rw [ensureCached_requests, hrun]
    simp [mapSet]

end hibp

namespace main
open onepass

/-! ## The vault scan -/

theorem scanItems_never_stop {σ : Type} (unmarshal : Unmarshal) (cb : Callback σ)
    (items : List Item)
    (hextract : ∀ item ∈ items, item.Trashed = false →
      ∃ pws, extractPasswords unmarshal item = .ok pws)
    (hnever : ∀ st item pws, (cb st item pws).1 = false) (st : σ) :
    (scanItems unmarshal cb st items).err = none ∧
    callbackItems (scanItems unmarshal cb st items).events =
      items.filter (fun item => !item.Trashed) ∧
    decryptedItems (scanItems unmarshal cb st items).events =
      items.filter (fun item => !item.Trashed) ∧
    ∀ item pws stop, Event.callback item pws stop ∈ (scanItems unmarshal cb st items).events →
      item ∈ items ∧ item.Trashed = false ∧ extractPasswords unmarshal item = .ok pws ∧
        stop = false := by
  induction items generalizing st with
  | nil => exact ⟨rfl, rfl, rfl, fun _ _ _ h => by cases h⟩
  | cons item rest ih =>
    have hrest : ∀ i ∈ rest, i.Trashed = false → ∃ pws, extractPasswords unmarshal i = .ok pws :=
      fun i hi => hextract i (List.mem_cons_of_mem _ hi)
    by_cases ht : item.Trashed = true
    · obtain ⟨h1, h2, h3, h4⟩ := ih hrest st
      rw [scanItems, if_pos ht]
      refine ⟨h1, ?_, ?_, ?_⟩
      · rw [h2, List.filter_cons_of_neg (by simp [ht])]
      · rw [h3, List.filter_cons_of_neg (by simp [ht])]
      · intro i pws stop hmem
        obtain ⟨ha, hb⟩ := h4 i pws stop hmem
        exact ⟨List.mem_cons_of_mem _ ha, hb⟩
    · have htf : item.Trashed = false := by simpa using ht
      obtain ⟨pws, hp⟩ := hextract item (List.mem_cons_self _ _) htf
      obtain ⟨h1, h2, h3, h4⟩ := ih hrest (cb st item pws).2
      rw [scanItems, if_neg ht]
      simp only [hp, hnever, Bool.false_eq_true, if_false]
      refine ⟨h1, ?_, ?_, ?_⟩
      · rw [List.filter_cons_of_pos (by simp [htf])]
        simp only [callbackItems, h2]
      · rw [List.filter_cons_of_pos (by simp [htf])]
        simp only [decryptedItems, h3]
      · intro i p stop hmem
        simp only [List.mem_cons] at hmem
        rcases hmem with h | h | h
        · cases h
        · cases h
          exact ⟨List.mem_cons_self _ _, htf, hp, rfl⟩
        · obtain ⟨ha, hb⟩ := h4 i p stop h
          exact ⟨List.mem_cons_of_mem _ ha, hb⟩

/-- C14: `ScanOnePassword` skips trashed items. When listing succeeds, every non-trashed
item yields its passwords and the callback never returns true, the scan returns nil and
the callback is invoked exactly once for each item with `Trashed = false`, in list order,
with the passwords extracted from that item, and never for a trashed item (trashed items
are not decrypted either). -/
theorem ScanOnePassword_skips_trashed {σ : Type} (unmarshal : Unmarshal) (v : Vault)
    (items : List Item) (cb : Callback σ) (st : σ)
    (hlist : v.ListItems = .ok items)
    (hextract : ∀ item ∈ items, item.Trashed = false →
      ∃ pws, extractPasswords unmarshal item = .ok pws)
    (hnever : ∀ st item pws, (cb st item pws).1 = false) :
    (ScanOnePassword unmarshal v cb st).err = none ∧
    callbackItems (ScanOnePassword unmarshal v cb st).events =
      items.filter (fun item => !item.Trashed) ∧
    decryptedItems (ScanOnePassword unmarshal v cb st).events =
      items.filter (fun item => !item.Trashed) ∧
    ∀ item pws stop, Event.callback item pws stop ∈ (ScanOnePassword unmarshal v cb st).events →
      item ∈ items ∧ item.Trashed = false ∧ extractPasswords unmarshal item = .ok pws ∧
        stop = false := by
  unfold ScanOnePassword
  simp only [hlist]
  exact scanItems_never_stop unmarshal cb items hextract hnever st

end main

namespace main
open onepass

theorem ScanOnePassword_skips_trashed_witness :
    (ScanOnePassword (fun _ => .error "unexpected end of JSON input")
      ⟨.ok [sampleLogin "old" true "a", sampleLogin "mail" false "b",
        sampleLogin "bank" false "c"]⟩ countingCallback 0).err = none ∧
    (callbackItems (ScanOnePassword (fun _ => .error "unexpected end of JSON input")
      ⟨.ok [sampleLogin "old" true "a", sampleLogin "mail" false "b",
        sampleLogin "bank" false "c"]⟩ countingCallback 0).events).length = 2 :=
  have h := ScanOnePassword_skips_trashed (fun _ => .error "unexpected end of JSON input")
    ⟨.ok [sampleLogin "old" true "a", sampleLogin "mail" false "b",
      sampleLogin "bank" false "c"]⟩
    [sampleLogin "old" true "a", sampleLogin "mail" false "b", sampleLogin "bank" false "c"]
    countingCallback 0 rfl
    (by
      intro item hi _
      simp only [List.mem_cons, List.mem_singleton, List.not_mem_nil, or_false] at hi
      rcases hi with rfl | rfl | rfl <;> exact ⟨_, rfl⟩)
    (fun _ _ _ => rfl)
  ⟨h.1, by rw [h.2.1]; rfl⟩

theorem scanItems_stop {σ : Type} (unmarshal : Unmarshal) (cb : Callback σ)
    (items : List Item) (st : σ) (item : Item) (pws : List String)
    (hmem : Event.callback item pws true ∈ (scanItems unmarshal cb st items).events) :
    (scanItems unmarshal cb st items).err = none ∧
    ∃ before, (scanItems unmarshal cb st items).events =
      before ++ [Event.callback item pws true] ∧
      ∀ i p, Event.callback i p true ∉ before := by
  induction items generalizing st with
  | nil => cases hmem
  | cons x rest ih =>
    rw [scanItems] at hmem ⊢
    by_cases ht : x.Trashed = true
    · rw [if_pos ht] at hmem ⊢
      exact ih st hmem
    · rw [if_neg ht] at hmem ⊢
      cases hx : extractPasswords unmarshal x with
      | error err =>
        rw [hx] at hmem
        simp at hmem
      | ok passwords =>
        rw [hx] at hmem
        dsimp only at hmem ⊢
        by_cases hs : (cb st x passwords).1 = true
        · rw [if_pos hs] at hmem ⊢
          simp at hmem
          obtain ⟨rfl, rfl⟩ := hmem
          refine ⟨rfl, [Event.decrypt item], rfl, ?_⟩
          intro i p hip
          simp at hip
        · rw [if_neg hs] at hmem ⊢
          simp at hmem
          obtain ⟨h1, before, h2, h3⟩ := ih _ hmem
          refine ⟨h1, Event.decrypt x :: Event.callback x passwords false :: before, ?_, ?_⟩
          · rw [h2]; rfl
          · intro i p hip
            simp at hip
            exact h3 i p hip

/-- C15: `ScanOnePassword` stops on the callback's signal. If some invocation of the
callback returns true, the scan returns nil and that invocation is the last thing the scan
does: no item is decrypted and no callback is invoked after it, and no earlier invocation
returned true. In particular, when the callback returns true on the first non-trashed
item, the scan decrypts that item, invokes the callback once and returns nil. -/
theorem ScanOnePassword_stops_on_signal {σ : Type} (unmarshal : Unmarshal) (v : Vault)
    (cb : Callback σ) (st : σ) :
    (∀ item pws, Event.callback item pws true ∈ (ScanOnePassword unmarshal v cb st).events →
      (ScanOnePassword unmarshal v cb st).err = none ∧
      ∃ before, (ScanOnePassword unmarshal v cb st).events =
        before ++ [Event.callback item pws true] ∧
        ∀ i p, Event.callback i p true ∉ before) ∧
    (∀ pre item post pws, v.ListItems = .ok (pre ++ item :: post) →
      (∀ i ∈ pre, i.Trashed = true) → item.Trashed = false →
      extractPasswords unmarshal item = .ok pws → (cb st item pws).1 = true →
      (ScanOnePassword unmarshal v cb st).err = none ∧
      (ScanOnePassword unmarshal v cb st).events =
        [Event.decrypt item, Event.callback item pws true] ∧
      callbackItems (ScanOnePassword unmarshal v cb st).events = [item]) := by
  refine ⟨?_, ?_⟩
  · intro item pws hmem
    unfold ScanOnePassword at hmem ⊢
    cases hl : v.ListItems with
    | error err =>
      simp only [hl] at hmem
      cases hmem
    | ok items =>
      simp only [hl] at hmem ⊢
      exact scanItems_stop unmarshal cb items st item pws hmem
  · intro pre item post pws hl hpre ht hx hs
    unfold ScanOnePassword
    simp only [hl]
    have hscan : scanItems unmarshal cb st (pre ++ item :: post) =
        ⟨[Event.decrypt item, Event.callback item pws true], none, (cb st item pws).2⟩ := by
      clear hl
      induction pre with
      | nil =>
        rw [List.nil_append, scanItems]
        simp [ht, hx, hs]
      | cons x rest ih =>
        rw [List.cons_append, scanItems, if_pos (hpre x (List.mem_cons_self _ _))]
        exact ih (fun i hi => hpre i (List.mem_cons_of_mem _ hi))
    rw [hscan]
    exact ⟨rfl, rfl, rfl⟩

theorem ScanOnePassword_stops_on_signal_witness :
    (ScanOnePassword (fun _ => .error "unexpected end of JSON input")
      ⟨.ok [sampleLogin "old" true "a", sampleLogin "mail" false "b",
        sampleLogin "bank" false "c"]⟩ stoppingCallback 0).err = none ∧
    (ScanOnePassword (fun _ => .error "unexpected end of JSON input")
      ⟨.ok [sampleLogin "old" true "a", sampleLogin "mail" false "b",
        sampleLogin "bank" false "c"]⟩ stoppingCallback 0).events =
      [Event.decrypt (sampleLogin "mail" false "b"),
       Event.callback (sampleLogin "mail" false "b") ["b"] true] ∧
    (callbackItems (ScanOnePassword (fun _ => .error "unexpected end of JSON input")
      ⟨.ok [sampleLogin "old" true "a", sampleLogin "mail" false "b",
        sampleLogin "bank" false "c"]⟩ stoppingCallback 0).events).length = 1 :=
  have h := (ScanOnePassword_stops_on_signal (fun _ => .error "unexpected end of JSON input")
    ⟨.ok [sampleLogin "old" true "a", sampleLogin "mail" false "b",
      sampleLogin "bank" false "c"]⟩ stoppingCallback 0).2
    [sampleLogin "old" true "a"] (sampleLogin "mail" false "b") [sampleLogin "bank" false "c"]
    ["b"] rfl
    (by
      intro i hi
      rw [List.mem_singleton] at hi
      rw [hi]
      rfl)
    rfl rfl rfl
  ⟨h.1, h.2.1, by rw [h.2.2]; rfl⟩

/-- C16, the code at failing inputs. Only a failing `ContentJson()` of a
`passwords.Password` item is wrapped with the item's title. When the JSON of such an item
cannot be decoded, and when `Content()` of an item of another type fails, the scan returns
the underlying error as it is, and its message does not name the item. In all three cases
the callback is not invoked and the later item is not examined. -/
theorem ScanOnePassword_error_without_title :
    (ScanOnePassword (fun _ => .error "unexpected end of JSON input")
      ⟨.ok [⟨"GitHub", "passwords.Password", false, .error "decryption failed",
          .error "decryption failed"⟩, sampleLogin "bank" false "c"]⟩
      countingCallback 0).err = some "failed to decrypt item: GitHub: decryption failed\n" ∧
    (ScanOnePassword (fun _ => .error "unexpected end of JSON input")
      ⟨.ok [⟨"GitHub", "passwords.Password", false, .ok "", .ok ⟨[]⟩⟩,
        sampleLogin "bank" false "c"]⟩
      countingCallback 0).err = some "unexpected end of JSON input" ∧
    (ScanOnePassword (fun _ => .error "unexpected end of JSON input")
      ⟨.ok [⟨"GitHub", "webforms.WebForm", false, .error "decryption failed",
          .error "decryption failed"⟩, sampleLogin "bank" false "c"]⟩
      countingCallback 0).err = some "decryption failed" ∧
    ¬ ("GitHub".data <:+: "unexpected end of JSON input".data) ∧
    ¬ ("GitHub".data <:+: "decryption failed".data) ∧
    callbackItems (ScanOnePassword (fun _ => .error "unexpected end of JSON input")
      ⟨.ok [⟨"GitHub", "passwords.Password", false, .ok "", .ok ⟨[]⟩⟩,
        sampleLogin "bank" false "c"]⟩
      countingCallback 0).events = [] ∧
    callbackItems (ScanOnePassword (fun _ => .error "unexpected end of JSON input")
      ⟨.ok [⟨"GitHub", "webforms.WebForm", false, .error "decryption failed",
          .error "decryption failed"⟩, sampleLogin "bank" false "c"]⟩
      countingCallback 0).events = [] :=
  ⟨rfl, rfl, rfl, by decide, by decide, rfl, rfl⟩

/-- C17, the code at a failing input: a `passwords.Password` item whose primary password
is empty and whose two URL entries carry an empty and a non-empty password. Extraction
succeeds and omits the primary password, but every URL password is appended without a
test, so the list handed to the callback contains the empty string. -/
theorem extractPasswords_keeps_empty_url_password :
    extractPasswords
      (fun _ => .ok ⟨"", [⟨"https://a.example", ""⟩, ⟨"https://b.example", "hunter2"⟩]⟩)
      ⟨"Example", "passwords.Password", false, .ok "{}", .ok ⟨[]⟩⟩ = .ok ["", "hunter2"] ∧
    "" ∈ ["", "hunter2"] ∧
    (ScanOnePassword
      (fun _ => .ok ⟨"", [⟨"https://a.example", ""⟩, ⟨"https://b.example", "hunter2"⟩]⟩)
      ⟨.ok [⟨"Example", "passwords.Password", false, .ok "{}", .ok ⟨[]⟩⟩]⟩
      countingCallback 0).events =
      [Event.decrypt ⟨"Example", "passwords.Password", false, .ok "{}", .ok ⟨[]⟩⟩,
       Event.callback ⟨"Example", "passwords.Password", false, .ok "{}", .ok ⟨[]⟩⟩
         ["", "hunter2"] false] :=
  ⟨rfl, by decide, rfl⟩

/-- C18: when listing the items fails, `ScanOnePassword` returns an error whose message is
`failed to list items: ` followed by the message of the listing error (and a newline, as
in the format string), the callback is never invoked and no item is decrypted. -/
theorem ScanOnePassword_listing_fails {σ : Type} (unmarshal : Unmarshal) (v : Vault)
    (cb : Callback σ) (st : σ) (e : String) (hlist : v.ListItems = .error e) :
    (ScanOnePassword unmarshal v cb st).err = some ("failed to list items: " ++ e ++ "\n") ∧
    ("failed to list items: " ++ e).data <+: ("failed to list items: " ++ e ++ "\n").data ∧
    (ScanOnePassword unmarshal v cb st).events = [] ∧
    callbackItems (ScanOnePassword unmarshal v cb st).events = [] ∧
    (ScanOnePassword unmarshal v cb st).state = st := by
  have hrun : ScanOnePassword unmarshal v cb st =
      ⟨[], some ("failed to list items: " ++ e ++ "\n"), st⟩ := by
    unfold ScanOnePassword
    rw [hlist]
  rw [hrun]
  refine ⟨rfl, ?_, rfl, rfl, rfl⟩
  rw [String.data_append]
  exact List.prefix_append _ _

theorem ScanOnePassword_listing_fails_witness :
    (ScanOnePassword (fun _ => .error "unexpected end of JSON input")
      ⟨.error "open data/default/contents.js: no such file or directory"⟩
      countingCallback 0).err =
      some "failed to list items: open data/default/contents.js: no such file or directory\n" :=
  (ScanOnePassword_listing_fails (fun _ => .error "unexpected end of JSON input")
    ⟨.error "open data/default/contents.js: no such file or directory"⟩
    countingCallback 0 "open data/default/contents.js: no such file or directory" rfl).1

end main
